import Mathlib

/-!
Verification development for the GAQL (Google Ads Query Language) query
analysis engine: schema registry (`schema.ts`), validator (`validator.ts`),
parser / completion engine (`parser.ts`).

Strings are modelled as `List Char`.  The JavaScript regular expressions used
by the source are embedded as explicit scanning functions that reproduce the
backtracking regex semantics (leftmost match, greedy / lazy quantifiers)
for the concrete patterns appearing in the source.  JSON objects are
modelled as association lists in key order (JavaScript objects preserve
insertion order and have unique keys).
-/

namespace GAQL

abbrev Str := List Char

/-- ASCII lower-casing of one char, as `String.prototype.toLowerCase` acts on
the ASCII range used by the schema. -/
def lowerChar (c : Char) : Char :=
  if 'A' ≤ c ∧ c ≤ 'Z' then Char.ofNat (c.toNat + 32) else c

/-- ASCII upper-casing of one char (`String.prototype.toUpperCase`). -/
def upperChar (c : Char) : Char :=
  if 'a' ≤ c ∧ c ≤ 'z' then Char.ofNat (c.toNat - 32) else c

def lowerStr (s : Str) : Str := s.map lowerChar

def upperStr (s : Str) : Str := s.map upperChar

/-- JavaScript regex `\w` / identifier character: `[A-Za-z0-9_]`. -/
def isWordChar (c : Char) : Bool :=
  (('A' ≤ c ∧ c ≤ 'Z') ∨ ('a' ≤ c ∧ c ≤ 'z') ∨ ('0' ≤ c ∧ c ≤ '9') ∨ c = '_')

/-- Identifier start character `[A-Za-z_]` (regex `[a-z_]` with the `i` flag). -/
def isIdentStart (c : Char) : Bool :=
  (('A' ≤ c ∧ c ≤ 'Z') ∨ ('a' ≤ c ∧ c ≤ 'z') ∨ c = '_')

/-- JavaScript regex `\s`, restricted to the ASCII whitespace characters that
occur in the queries under analysis. -/
def isWsChar (c : Char) : Bool :=
  (c = ' ' ∨ c = '\t' ∨ c = '\n' ∨ c = '\r' ∨ c = '\x0b' ∨ c = '\x0c')

/-- `isWhitespaceChar` from `parser.ts` (space, tab, LF, CR only). -/
def isWs4 (c : Char) : Bool :=
  (c = ' ' ∨ c = '\t' ∨ c = '\n' ∨ c = '\r')

/-- `String.prototype.trim`. -/
def trimStr (s : Str) : Str :=
  ((s.dropWhile isWsChar).reverse.dropWhile isWsChar).reverse

/-- Case-insensitive `startsWith` (pattern, text). -/
def startsWithCI : Str → Str → Bool
  | [], _ => true
  | _ :: _, [] => false
  | w :: ws, c :: cs => (lowerChar w = lowerChar c) && startsWithCI ws cs

/-- Word-boundary test for the character preceding a match of a keyword that
begins with a word character: `\b` holds iff there is no preceding character
or it is not a word character. -/
def boundaryOkB (prev : Option Char) : Bool :=
  match prev with
  | none => true
  | some c => !(isWordChar c)

/-- `\bKW\b` holds at the head of `s` (keyword made of word characters):
case-insensitive match followed by end of text or a non-word character. -/
def wordMatchAt (w : Str) (s : Str) : Bool :=
  startsWithCI w s &&
    (match s.drop w.length with
     | [] => true
     | c :: _ => !(isWordChar c))

def containsWordCIAux (w : Str) : Option Char → Str → Bool
  | _, [] => false
  | prev, c :: cs =>
      (boundaryOkB prev && wordMatchAt w (c :: cs)) || containsWordCIAux w (some c) cs

/-- `new RegExp("\\b" + KW + "\\b", "i").test(s)` for a keyword of word
characters. -/
def containsWordCI (w s : Str) : Bool := containsWordCIAux w none s

/-- Case-insensitive plain substring test (`/KW/i.test(s)` without `\b`). -/
def containsSubCI (w : Str) : Str → Bool
  | [] => w = []
  | c :: cs => startsWithCI w (c :: cs) || containsSubCI w cs

/-- Case-sensitive substring test (`String.prototype.includes`). -/
def containsSub (w : Str) : Str → Bool
  | [] => decide (w = [])
  | c :: cs => decide (w.isPrefixOf (c :: cs)) || containsSub w cs

/-- First index of substring `w` (`String.prototype.indexOf`), `none` for -1. -/
def indexOfSub (w : Str) : Str → Option Nat
  | [] => if w = [] then some 0 else none
  | c :: cs =>
      if w.isPrefixOf (c :: cs) then some 0
      else (indexOfSub w cs).map (· + 1)

def kwSelect : Str := "select".data
def kwFrom : Str := "from".data
def kwWhere : Str := "where".data
def kwOrder : Str := "order".data
def kwBy : Str := "by".data
def kwLimit : Str := "limit".data

/-- `\s+(\w+)` at the head of `s`: at least one whitespace character, then a
maximal non-empty run of word characters (the capture).  If the run is empty
the whole attempt fails (backtracking `\s+` cannot help because `\w` never
matches whitespace). -/
def wsWordAfter (s : Str) : Option Str :=
  match s with
  | [] => none
  | c :: cs =>
      if isWsChar c then
        match (c :: cs).dropWhile isWsChar with
        | [] => none
        | d :: ds => if isWordChar d then some ((d :: ds).takeWhile isWordChar) else none
      else none

def fromCaptureAux : Option Char → Str → Option Str
  | _, [] => none
  | prev, c :: cs =>
      match (if boundaryOkB prev && startsWithCI kwFrom (c :: cs)
             then wsWordAfter ((c :: cs).drop 4) else none) with
      | some w => some w
      | none => fromCaptureAux (some c) cs

/-- Capture of `/\bFROM\s+(\w+)/i`: leftmost `\bFROM` followed by whitespace
and a word run; on failure the regex engine advances one position. -/
def fromCapture (s : Str) : Option Str := fromCaptureAux none s

/-- `\s+KW` holds at the head of `s` (at least one whitespace character, then
the keyword, case-insensitively).  The keyword starts with a non-whitespace
character, so it can only begin right after the maximal whitespace run. -/
def wsThenCI (kw : Str) (s : Str) : Bool :=
  match s with
  | [] => false
  | c :: cs => isWsChar c && startsWithCI kw ((c :: cs).dropWhile isWsChar)

/-- Lazy capture `(.+?)` bounded by `\s+KW`: consume at least one character,
stopping at the first point where the remainder begins with `\s+KW`. -/
def lazyCapAux (kw : Str) : Str → Str → Option Str
  | _, [] => none
  | taken, c :: cs =>
      if wsThenCI kw cs then some (taken ++ [c]) else lazyCapAux kw (taken ++ [c]) cs

/-- Attempt `\s+(.+?)\s+FROM` at the text right after a `SELECT` literal:
the leading `\s+` is greedy (maximal run first), backtracking one whitespace
character at a time. -/
def selectTryWs : Nat → Str → Option Str
  | 0, _ => none
  | n + 1, rest =>
      match lazyCapAux kwFrom [] (rest.drop (n + 1)) with
      | some cap => some cap
      | none => selectTryWs n rest

def selectTryAt (rest : Str) : Option Str :=
  selectTryWs ((rest.takeWhile isWsChar).length) rest

def selectCaptureAux : Option Char → Str → Option Str
  | _, [] => none
  | prev, c :: cs =>
      match (if boundaryOkB prev && startsWithCI kwSelect (c :: cs)
             then selectTryAt ((c :: cs).drop 6) else none) with
      | some cap => some cap
      | none => selectCaptureAux (some c) cs

/-- Capture of `/\bSELECT\s+(.+?)\s+FROM/is` (note: no `\b` after `FROM`). -/
def selectCapture (s : Str) : Option Str := selectCaptureAux none s

/-- `\s+ORDER\s+BY` at the head of `s`. -/
def wsThenOrderBy (s : Str) : Bool :=
  match s with
  | [] => false
  | c :: cs =>
      isWsChar c &&
        (let t := (c :: cs).dropWhile isWsChar
         startsWithCI kwOrder t && wsThenCI kwBy (t.drop 5))

/-- Terminator `(\s+ORDER\s+BY|\s+LIMIT|$)` of the WHERE-clause regex. -/
def whereTermAt (s : Str) : Bool :=
  decide (s = []) || wsThenOrderBy s || wsThenCI kwLimit s

/-- Lazy capture `(.+?)` bounded by the WHERE-clause terminator. -/
def lazyCapTermAux : Str → Str → Option Str
  | _, [] => none
  | taken, c :: cs =>
      if whereTermAt cs then some (taken ++ [c]) else lazyCapTermAux (taken ++ [c]) cs

def whereTryWs : Nat → Str → Option Str
  | 0, _ => none
  | n + 1, rest =>
      match lazyCapTermAux [] (rest.drop (n + 1)) with
      | some cap => some cap
      | none => whereTryWs n rest

def whereTryAt (rest : Str) : Option Str :=
  whereTryWs ((rest.takeWhile isWsChar).length) rest

def whereCaptureAux : Option Char → Str → Option Str
  | _, [] => none
  | prev, c :: cs =>
      match (if boundaryOkB prev && startsWithCI kwWhere (c :: cs)
             then whereTryAt ((c :: cs).drop 5) else none) with
      | some cap => some cap
      | none => whereCaptureAux (some c) cs

/-- Capture of `/\bWHERE\s+(.+?)(\s+ORDER\s+BY|\s+LIMIT|$)/is`. -/
def whereCapture (s : Str) : Option Str := whereCaptureAux none s

/-! ## Schema registry (`schema.ts`)

The versioned JSON schema artifacts (`fields-v19/20/21.json`) are produced by
an external extraction script and are not part of the analysed sources, so
the registry is parameterised by the loaded catalog: an association list
`resource name -> { fields (grouped by attribution prefix), metrics,
segments }` in object-key order.  Passing the catalog explicitly subsumes
both the global-version variant (`getFieldsForResource(name)`) and the
explicit-version variant (`getFieldsForResource(name, version)`) of the
source, which differ only in how `versionSchemas[version]` is selected. -/

structure FieldDefinition where
  name : Str
  ftype : Str            -- `type` in the source
  description : Str      -- the fully qualified dotted name
  documentation : Option Str
deriving DecidableEq

/-- One resource entry of the catalog (`FieldsDataType[resourceName]`). -/
structure ResourceData where
  fields : List (Str × List (Str × Str))
  metrics : List (Str × Str)
  segments : List (Str × Str)
deriving DecidableEq

abbrev Catalog := List (Str × ResourceData)

/-- JavaScript object property lookup (`fieldsData[resourceName]`). -/
def lookupRes (cat : Catalog) (r : Str) : Option ResourceData :=
  (cat.find? (fun p => p.1 = r)).map (·.2)

def tyString : Str := "string".data
def tyMetric : Str := "metric".data
def tySegment : Str := "segment".data
def grpMetrics : Str := "metrics".data
def grpSegments : Str := "segments".data

/-- The unsorted flattened field list built by `getFieldsForResource`:
all attribution-prefix groups in object order, then metrics, then segments. -/
def flattenGroups (d : ResourceData) : List FieldDefinition :=
  (d.fields.flatMap (fun g =>
    g.2.map (fun fd => ⟨fd.1, tyString, g.1 ++ '.' :: fd.1, some fd.2⟩)))
  ++ d.metrics.map (fun m => ⟨m.1, tyMetric, grpMetrics ++ '.' :: m.1, some m.2⟩)
  ++ d.segments.map (fun m => ⟨m.1, tySegment, grpSegments ++ '.' :: m.1, some m.2⟩)

/-- Code-unit lexicographic order on strings; `Array.prototype.sort()` without
a comparator sorts this way.  `localeCompare` (used for the field sort) is
locale-dependent; we fix this ASCII order — the results below depend only on
the sorted list being a permutation. -/
def strLeB : Str → Str → Bool
  | [], _ => true
  | _ :: _, [] => false
  | a :: as, b :: bs =>
      if a.toNat < b.toNat then true
      else if b.toNat < a.toNat then false
      else strLeB as bs

def nameLe (a b : FieldDefinition) : Prop := strLeB a.name b.name = true

instance : DecidableRel nameLe := fun a b => decEq (strLeB a.name b.name) true

def keyLe (a b : Str) : Prop := strLeB a b = true

instance : DecidableRel keyLe := fun a b => decEq (strLeB a b) true

/-- `getFieldsForResource`: unknown resource degrades to `[]`; otherwise the
flattened field list sorted by short name. -/
def getFieldsForResource (cat : Catalog) (r : Str) : List FieldDefinition :=
  match lookupRes cat r with
  | none => []
  | some d => List.insertionSort nameLe (flattenGroups d)

/-- `getFieldsForResourcePrefix` in the source: the fields of one attribution
group of the FROM resource, unsorted. -/
def getFieldsForResourceScoped (cat : Catalog) (r pfx : Str) : List FieldDefinition :=
  match lookupRes cat r with
  | none => []
  | some d =>
      match d.fields.find? (fun g => g.1 = pfx) with
      | none => []
      | some g => g.2.map (fun fd => ⟨fd.1, tyString, pfx ++ '.' :: fd.1, some fd.2⟩)

/-- `getResourceNames`: `Object.keys(fieldsData).sort()`. -/
def getResourceNames (cat : Catalog) : List Str :=
  List.insertionSort keyLe (cat.map (·.1))

/-! ## Suggestion engine (`findClosestMatch`, `levenshteinDistance`) -/

/-- One inner iteration of the Levenshtein dynamic program: given the
previous row starting at column `j-1` (`p0 :: p1 :: _`), the value to the
left in the current row, and the remaining characters of `a`, produce the
rest of the current row (columns `1..n`). -/
def levGo (bc : Char) : Str → List Nat → Nat → List Nat
  | [], _, _ => []
  | _ :: _, [], _ => []
  | ac :: as, p0 :: rest, left =>
      match rest with
      | [] => []
      | p1 :: _ =>
          let v := if bc = ac then p0 else Nat.min (Nat.min p0 left) p1 + 1
          v :: levGo bc as rest v

/-- `levenshteinDistance(a, b)`: the classic `(|b|+1) × (|a|+1)` matrix,
row by row; the result is the last entry of the last row. -/
def levenshteinDistance (a b : Str) : Nat :=
  let firstRow := List.range (a.length + 1)
  let finalRow := b.foldl (fun (acc : List Nat × Nat) bc =>
    let i := acc.2 + 1
    (i :: levGo bc a acc.1 i, i)) (firstRow, 0)
  (finalRow.1).getLastD 0

/-- The case-insensitive distance used by `findClosestMatch`. -/
def distCI (input cand : Str) : Nat :=
  levenshteinDistance (lowerStr input) (lowerStr cand)

/-- One loop iteration of `findClosestMatch`: starting from "minDistance =
Infinity, closestMatch = undefined" (`none`), a candidate strictly closer
than the running minimum replaces it. -/
def fcmStep (input : Str) (acc : Option (Nat × Str)) (c : Str) : Option (Nat × Str) :=
  let d := distCI input c
  match acc with
  | none => some (d, c)
  | some (m, b) => if d < m then some (d, c) else some (m, b)

/-- `findClosestMatch(input, candidates)`: minimum-distance candidate with
strict-improvement updates (first minimum wins); `none` for an empty list or
when the minimum exceeds `input.length / 2` (real division, so for an
integral distance this is `2 * d ≤ input.length`). -/
def findClosestMatch (input : Str) (candidates : List Str) : Option Str :=
  if candidates = [] then none
  else
    match candidates.foldl (fcmStep input) none with
    | none => none
    | some (m, b) => if 2 * m ≤ input.length then some b else none

/-! ## Validator (`validator.ts`) -/

/-- Match `(?:[^{}]|\{[^}]*\})*\}` at the head of the text (the body and
closing brace of a `${...}` interpolation span, one level of nested braces),
returning the remainder after the closing brace.  The decomposition is
deterministic, so it is computed by a two-state scan: in the outer state a
`'}'` closes the span and a `'{'` enters a `\{[^}]*\}` item; in the inner
state everything up to the next `'}'` is consumed. -/
def matchInnerSt : Bool → Str → Option Str
  | _, [] => none
  | false, c :: rest =>
      if c = '}' then some rest
      else if c = '{' then matchInnerSt true rest
      else matchInnerSt false rest
  | true, c :: rest =>
      if c = '}' then matchInnerSt false rest
      else matchInnerSt true rest

def matchInner (s : Str) : Option Str := matchInnerSt false s

theorem matchInnerSt_length {r : Str} :
    ∀ {b : Bool} {s : Str}, matchInnerSt b s = some r → r.length < s.length := by
  intro b s
  induction s generalizing b with
  | nil => intro h; cases b <;> simp [matchInnerSt] at h
  | cons c rest ih =>
      intro h
      cases b with
      | false =>
          rw [matchInnerSt] at h
          by_cases hc : c = '}'
          · simp [hc] at h; subst h; simp
          · by_cases hb : c = '{'
            · simp [hc, hb] at h
              have := ih h; simp; omega
            · simp [hc, hb] at h
              have := ih h; simp; omega
      | true =>
          rw [matchInnerSt] at h
          by_cases hc : c = '}'
          · simp [hc] at h
            have := ih h; simp; omega
          · simp [hc] at h
            have := ih h; simp; omega

theorem matchInner_length {s r : Str} (h : matchInner s = some r) :
    r.length < s.length := matchInnerSt_length h

def placeholderStr : Str := "'__PLACEHOLDER__'".data

/-- `stripTemplateLiteralInterpolations`: global replacement of
`/\$\{(?:[^{}]|\{[^}]*\})*\}/` by the placeholder literal.  On a failed
match attempt the regex engine advances one position; characters inside a
successful match are not rescanned.  Structural recursion on a fuel bound:
every step consumes at least one character, so any `s.length ≤ fuel`
suffices and the zero-fuel case is unreachable from `stripTL`. -/
def stripTLF : Nat → Str → Str
  | 0, s => s
  | _ + 1, [] => []
  | fuel + 1, c :: rest =>
      if c = '$' then
        match rest with
        | [] => [c]
        | d :: rest2 =>
            if d = '{' then
              match matchInner rest2 with
              | some r => placeholderStr ++ stripTLF fuel r
              | none => c :: stripTLF fuel (d :: rest2)
            else c :: stripTLF fuel (d :: rest2)
      else c :: stripTLF fuel rest

def stripTL (s : Str) : Str := stripTLF s.length s

/-- `String.prototype.split(sep)` for a single-character separator. -/
def splitOnCharAux (sep : Char) : Str → Str → List Str
  | acc, [] => [acc.reverse]
  | acc, c :: cs =>
      if c = sep then acc.reverse :: splitOnCharAux sep [] cs
      else splitOnCharAux sep (c :: acc) cs

def splitOnChar (sep : Char) (s : Str) : List Str := splitOnCharAux sep [] s

/-- The global matches of `/([a-z_][a-z0-9_]*\.[a-z_][a-z0-9_]*)/gi`:
dotted identifier pairs; a greedy first identifier, a dot, a greedy second
identifier.  After a successful match scanning resumes after the match;
after a failed attempt it resumes one position further. -/
def dottedMatchesF : Nat → Str → List Str
  | _, [] => []
  | 0, _ => []
  | fuel + 1, c :: cs =>
      if isIdentStart c then
        let run1 := (c :: cs).takeWhile isWordChar
        match (c :: cs).drop run1.length with
        | '.' :: d :: tl =>
            if isIdentStart d then
              let run2 := (d :: tl).takeWhile isWordChar
              (run1 ++ '.' :: run2) :: dottedMatchesF fuel ((d :: tl).drop run2.length)
            else dottedMatchesF fuel cs
        | _ => dottedMatchesF fuel cs
      else dottedMatchesF fuel cs

def dottedMatches (s : Str) : List Str := dottedMatchesF s.length s

inductive ValidationErrorType where
  | MISSING_SELECT | MISSING_FROM | INVALID_RESOURCE
  | INVALID_FIELD | INVALID_SYNTAX | INVALID_OPERATOR
deriving DecidableEq

structure ValidationError where
  type : ValidationErrorType
  message : Str
  line : Int
  column : Int
  length : Nat
  field : Option Str
  resource : Option Str
  suggestion : Option Str
deriving DecidableEq

structure ValidationResult where
  valid : Bool
  errors : List ValidationError
deriving DecidableEq

def msgMissingSelect : Str := "Missing SELECT clause".data
def msgMissingFrom : Str := "Missing FROM clause".data
def msgInvalidSyntax : Str := "Invalid FROM clause syntax".data

def msgInvalidResource (rn : Str) : Str := "Invalid resource name: ".data ++ rn

def msgInvalidField (field rn : Str) : Str :=
  "Invalid field: ".data ++ field ++ " for resource ".data ++ rn

/-- `findFieldLine(lines, field, afterKeyword)`. -/
def findFieldLineAux (field kw : Str) : List Str → Nat → Bool → Int
  | [], _, _ => 0
  | l :: ls, i, found =>
      let found2 := found || containsWordCI kw l
      if found2 && containsSub field l then (i : Int)
      else findFieldLineAux field kw ls (i + 1) found2

def findFieldLine (lines : List Str) (field kw : Str) : Int :=
  findFieldLineAux field kw lines 0 false

/-- `lines[lineIndex] || ''` (out-of-range indexing yields `undefined`). -/
def getLine (lines : List Str) (i : Int) : Str :=
  if i < 0 then [] else lines.getD i.toNat []

/-- Construction of one `INVALID_FIELD` error (identical in the SELECT- and
WHERE-clause loops; `kw` is the `afterKeyword` passed to `findFieldLine` and
`column >= 0 ? column : 0` maps a missing field to column 0). -/
def invalidFieldError (cat : Catalog) (lines : List Str) (rn kw field : Str) :
    ValidationError :=
  let lineIndex := findFieldLine lines field kw
  let line := getLine lines lineIndex
  let column : Int := match indexOfSub field line with
    | some i => (i : Int)
    | none => 0
  ⟨.INVALID_FIELD, msgInvalidField field rn, lineIndex, column, field.length,
   some field, some rn,
   findClosestMatch field ((getFieldsForResource cat rn).map (·.description))⟩

/-- The `INVALID_FIELD` errors of the SELECT-clause check (step 6). -/
def selectFieldErrors (cat : Catalog) (lines : List Str) (cleaned rn : Str) :
    List ValidationError :=
  match selectCapture cleaned with
  | none => []
  | some cap =>
      let selectFields := ((splitOnChar ',' cap).map trimStr).filter (fun f => !f.isEmpty)
      let validFieldDescriptions := (getFieldsForResource cat rn).map (·.description)
      selectFields.filterMap (fun field =>
        if field ∈ validFieldDescriptions then none
        else some (invalidFieldError cat lines rn kwSelect field))

/-- The `INVALID_FIELD` errors of the WHERE-clause check (step 7). -/
def whereFieldErrors (cat : Catalog) (lines : List Str) (cleaned rn : Str) :
    List ValidationError :=
  match whereCapture cleaned with
  | none => []
  | some whereClause =>
      let whereFields := dottedMatches whereClause
      let validFieldDescriptions := (getFieldsForResource cat rn).map (·.description)
      whereFields.filterMap (fun field =>
        if field ∈ validFieldDescriptions then none
        else some (invalidFieldError cat lines rn kwWhere field))

/-- `validateQuery` on the already-cleaned text (the original query is still
used for line/column positioning). -/
def validateCleaned (cat : Catalog) (q cleaned : Str) : ValidationResult :=
  let lines := splitOnChar '\n' q
  let e1 : List ValidationError :=
    if containsWordCI kwSelect cleaned then []
    else [⟨.MISSING_SELECT, msgMissingSelect, 0, 0, cleaned.length, none, none, none⟩]
  if containsWordCI kwFrom cleaned then
    match fromCapture cleaned with
    | none =>
        ⟨false, e1 ++ [⟨.INVALID_SYNTAX, msgInvalidSyntax, 0, 0, cleaned.length,
                        none, none, none⟩]⟩
    | some resourceName =>
        let availableResources := getResourceNames cat
        if resourceName ∈ availableResources then
          let errs := e1 ++ selectFieldErrors cat lines cleaned resourceName
                         ++ whereFieldErrors cat lines cleaned resourceName
          ⟨decide (errs = []), errs⟩
        else
          let lineIndex : Int := match lines.findIdx? (fun l => containsWordCI kwFrom l) with
            | some i => (i : Int)
            | none => -1
          let line := getLine lines lineIndex
          let column : Int := (match indexOfSub kwFrom (lowerStr line) with
            | some i => (i : Int)
            | none => -1) + 5
          ⟨false, e1 ++ [⟨.INVALID_RESOURCE, msgInvalidResource resourceName, lineIndex,
                          column, resourceName.length, some resourceName, none,
                          findClosestMatch resourceName availableResources⟩]⟩
  else
    let errs := e1 ++ [⟨.MISSING_FROM, msgMissingFrom, 0, 0, cleaned.length, none, none, none⟩]
    ⟨decide (errs = []), errs⟩

/-- `validateQuery(query)`. -/
def validateQuery (cat : Catalog) (q : Str) : ValidationResult :=
  validateCleaned cat q (stripTL q)

/-! ## Parser / completion engine (`parser.ts`) -/

inductive QueryContext where
  | keyword | select_fields | from_clause | where_field | where_value | operator
deriving DecidableEq

inductive CompletionType where
  | keyword | resource | field | operator | value
deriving DecidableEq

structure CompletionItem where
  label : Str
  ctype : CompletionType        -- `type` in the source
  description : Option Str
  documentation : Option Str
deriving DecidableEq

/-- `ParseResult`; `pfx` is the `prefix` field of the source. -/
structure ParseResult where
  context : QueryContext
  suggestions : List CompletionItem
  resource : Option Str
  pfx : Option Str
deriving DecidableEq

def GAQL_KEYWORDS : List Str :=
  (["SELECT", "FROM", "WHERE", "ORDER BY", "LIMIT", "AND", "OR", "NOT", "IN",
    "BETWEEN", "LIKE", "IS NULL", "IS NOT NULL", "ASC", "DESC", "DURING",
    "YESTERDAY", "TODAY", "LAST_7_DAYS", "LAST_14_DAYS", "LAST_30_DAYS",
    "THIS_MONTH", "LAST_MONTH", "THIS_WEEK_SUN_TODAY", "THIS_WEEK_MON_TODAY",
    "LAST_WEEK_SUN_SAT", "LAST_WEEK_MON_SUN"]).map String.data

def STATUS_VALUES : List Str :=
  (["ENABLED", "PAUSED", "REMOVED", "UNKNOWN", "UNSPECIFIED"]).map String.data

def OPERATORS : List Str :=
  (["=", "!=", ">", "<", ">=", "<=", "IN", "NOT IN", "LIKE", "NOT LIKE"]).map String.data

/-- `query.substring(0, position)` for an arbitrary (possibly negative or
out-of-range) integer position: JavaScript clamps both bounds into range. -/
def substrTo (q : Str) (position : Int) : Str :=
  if position < 0 then [] else q.take position.toNat

def dropTailWhile (p : Char → Bool) (s : Str) : Str := (s.reverse.dropWhile p).reverse

def takeTailWhile (p : Char → Bool) (s : Str) : Str := (s.reverse.takeWhile p).reverse

/-- Case-insensitive `endsWith`. -/
def endsWithCI (w s : Str) : Bool := startsWithCI w.reverse s.reverse

/-- `/KW\s+\w*$/i` (no word boundary before the keyword): the text ends with
the keyword, at least one whitespace character, and an optional partial word.
The trailing `\w*` and the `\s+` run are forced to be the maximal runs. -/
def endsKwWsWord (kw s : Str) : Bool :=
  let a := dropTailWhile isWordChar s
  let b := dropTailWhile isWsChar a
  decide (b ≠ a) && endsWithCI kw b

/-- `/,\s*$/`. -/
def endsComma (s : Str) : Bool :=
  match (dropTailWhile isWsChar s).getLast? with
  | some c => decide (c = ',')
  | none => false

/-- `/(op1|op2|...)\s+\w*$/i` over `OPERATORS` (with regex metacharacters
escaped, so each operator is a literal). -/
def endsOperatorWsWord (s : Str) : Bool :=
  let a := dropTailWhile isWordChar s
  let b := dropTailWhile isWsChar a
  decide (b ≠ a) && OPERATORS.any (fun op => endsWithCI op b)

/-- `/WHERE\s+[a-z_][a-z0-9_]*\.[a-z_][a-z0-9_]*\s+\w*$/i`. -/
def endsWhereFieldWord (s : Str) : Bool :=
  let s1 := dropTailWhile isWordChar s
  let s2 := dropTailWhile isWsChar s1
  if s2 = s1 then false
  else
    match takeTailWhile isWordChar s2 with
    | [] => false
    | h2 :: _ =>
        if !(isIdentStart h2) then false
        else
          let s3 := dropTailWhile isWordChar s2
          match s3.getLast? with
          | some '.' =>
              let s4 := s3.dropLast
              match takeTailWhile isWordChar s4 with
              | [] => false
              | h1 :: _ =>
                  if !(isIdentStart h1) then false
                  else
                    let s5 := dropTailWhile isWordChar s4
                    let s6 := dropTailWhile isWsChar s5
                    decide (s6 ≠ s5) && endsWithCI kwWhere s6
          | _ => false

def notFRMChar (c : Char) : Bool :=
  !(lowerChar c = 'f' ∨ lowerChar c = 'r' ∨ lowerChar c = 'o' ∨ lowerChar c = 'm')

/-- The tail of `/SELECT\s+[^FROM]*$/i` after the `SELECT` literal: one
whitespace character, then only characters outside the class `[FROMfrom]`
up to the end (whitespace is inside the class, so the greedy `\s+` split is
irrelevant). -/
def selectTailOkCC (r : Str) : Bool :=
  match r with
  | [] => false
  | c :: cs => isWsChar c && cs.all notFRMChar

/-- `/SELECT\s+[^FROM]*$/i.test(s)`: some occurrence of `SELECT` (no word
boundary) whose tail matches to the end of the text. -/
def selectNoFromAfter : Str → Bool
  | [] => false
  | c :: cs =>
      (startsWithCI kwSelect (c :: cs) && selectTailOkCC ((c :: cs).drop 6))
        || selectNoFromAfter cs

/-- `determineContext(query, position)`: ordered regex checks on the trimmed
cursor text. -/
def determineContext (q : Str) (position : Int) : QueryContext :=
  let beforeCursor := substrTo q position
  let trimmed := trimStr beforeCursor
  if endsKwWsWord kwWhere trimmed then .where_field
  else if endsComma trimmed then .select_fields
  else if endsKwWsWord kwFrom trimmed then .from_clause
  else if endsOperatorWsWord trimmed then .where_value
  else if endsWhereFieldWord trimmed then .operator
  else if selectNoFromAfter trimmed && !(containsSubCI kwFrom trimmed) then .select_fields
  else .keyword

/-- Full match of `[a-z_][a-z0-9_]*(?:\.[a-z_][a-z0-9_]*)*` as a two-state
scan (`false`: a segment must start, `true`: inside a segment). -/
def dottedAllSt : Bool → Str → Bool
  | st, [] => st
  | false, c :: cs => isIdentStart c && dottedAllSt true cs
  | true, c :: cs =>
      if c = '.' then dottedAllSt false cs
      else isWordChar c && dottedAllSt true cs

def dottedAll (s : Str) : Bool := dottedAllSt false s

/-- The capture of `/([a-z_][a-z0-9_]*(?:\.[a-z_][a-z0-9_]*)*)$/i` on the
cursor text: the longest suffix that fully matches the dotted-path pattern
(leftmost successful start position), or the empty string. -/
def fieldSuffix : Str → Str
  | [] => []
  | c :: cs => if dottedAll (c :: cs) then c :: cs else fieldSuffix cs

def descrFor (f : FieldDefinition) : Str := f.ftype ++ ": ".data ++ f.description

/-- `fieldToCompletionItem`. -/
def fieldToCompletionItem (f : FieldDefinition) : CompletionItem :=
  ⟨f.description, .field, some (descrFor f), f.documentation⟩

/-- `remaining.indexOf('.')`-based next-segment computation of
`getFieldSuggestions` (`nextDot > 0 ? remaining.substring(0, nextDot) :
remaining`). -/
def nextSegOf (typedPath desc : Str) : Str :=
  let remaining := desc.drop typedPath.length
  match remaining.findIdx? (fun c => c = '.') with
  | some i => if 0 < i then remaining.take i else remaining
  | none => remaining

/-- The `Map`-based deduplication loop of `getFieldSuggestions`: keep the
first field per non-empty next segment, in insertion order. -/
def dedupByNextSeg (typedPath : Str) (fs : List FieldDefinition) :
    List (Str × FieldDefinition) :=
  fs.foldl (fun acc f =>
    let seg := nextSegOf typedPath f.description
    if seg = [] ∨ acc.any (fun p => p.1 = seg) then acc else acc ++ [(seg, f)]) []

/-- `getFieldSuggestions(resource, typedPath)`. -/
def getFieldSuggestions (cat : Catalog) (resource typedPath : Str) : List CompletionItem :=
  let allFields := getFieldsForResource cat resource
  if typedPath = [] ∨ ¬ typedPath.contains '.' then
    allFields.map fieldToCompletionItem
  else
    let segs := splitOnChar '.' typedPath
    let pfx := List.intercalate ['.'] segs.dropLast
    let prefixFields :=
      if pfx = [] then allFields else getFieldsForResourceScoped cat resource pfx
    let matchingFields :=
      prefixFields.filter (fun f => (lowerStr typedPath).isPrefixOf f.description)
    (dedupByNextSeg typedPath matchingFields).map (fun p => fieldToCompletionItem p.2)

def descKeyword (k : Str) : Str := "GAQL keyword: ".data ++ k
def descResource (r : Str) : Str := "Google Ads resource: ".data ++ r
def descOperator (op : Str) : Str := "Comparison operator: ".data ++ op
def descValue (v : Str) : Str := "Status value: ".data ++ v

/-- `getCompletions(query, position, version)` (the catalog stands for the
version's schema). -/
def getCompletions (cat : Catalog) (q : Str) (position : Int) : ParseResult :=
  let context := determineContext q position
  let beforeCursor := substrTo q position
  match context with
  | .keyword =>
      ⟨context, GAQL_KEYWORDS.map (fun k => ⟨k, .keyword, some (descKeyword k), none⟩),
       none, none⟩
  | .from_clause =>
      ⟨context, (getResourceNames cat).map (fun r => ⟨r, .resource, some (descResource r), none⟩),
       none, none⟩
  | .operator =>
      ⟨context, OPERATORS.map (fun op => ⟨op, .operator, some (descOperator op), none⟩),
       none, none⟩
  | .where_value =>
      ⟨context, STATUS_VALUES.map (fun v => ⟨v, .value, some (descValue v), none⟩),
       none, none⟩
  | _ =>
      match fromCapture q with
      | none => ⟨context, [], none, none⟩
      | some resource =>
          let typedPath := fieldSuffix beforeCursor
          ⟨context, getFieldSuggestions cat resource typedPath, some resource, some typedPath⟩

/-- Index-based whole-word keyword search of the hardened scanner
(`findKeywordIndex` in `parser.ts`); `text` is already upper-cased and the
boundary characters default to a space (code 32) at the ends. -/
def fkiGoF : Nat → Str → Str → Nat → Option Nat
  | 0, _, _, _ => none
  | fuel + 1, text, kw, i =>
      if text.length < i + kw.length then none
      else if kw.isPrefixOf (text.drop i)
              && !(isWordChar (if i = 0 then ' ' else text.getD (i - 1) ' '))
              && !(isWordChar (text.getD (i + kw.length) ' ')) then some i
      else fkiGoF fuel text kw (i + 1)

def findKeywordIndex (text kw : Str) (from0 : Nat) : Option Nat :=
  fkiGoF (text.length + 1 - from0) text kw from0

def kwSELECTu : Str := "SELECT".data
def kwFROMu : Str := "FROM".data

/-- `extractSelectClause` (the ReDoS-hardened scanner of `parser.ts`). -/
def extractSelectClause (q : Str) : Option Str :=
  let upper := upperStr q
  match findKeywordIndex upper kwSELECTu 0 with
  | none => none
  | some selectIdx =>
      let start0 := selectIdx + 6
      let start := start0 + ((q.drop start0).takeWhile isWs4).length
      if q.length ≤ start then none
      else
        match findKeywordIndex upper kwFROMu start with
        | none => none
        | some fromIdx =>
            let r := trimStr ((q.drop start).take (fromIdx - start))
            if r = [] then none else some r

/-- Scanner-based `extractSelectFields` (`parser.ts`, current). -/
def extractSelectFields (q : Str) : List Str :=
  match extractSelectClause q with
  | none => []
  | some clause => ((splitOnChar ',' clause).map trimStr).filter (fun f => !f.isEmpty)

/-- Regex-based `extractSelectFields` of the older parser
(`/\bSELECT\s+(.+?)\s+FROM/is` capture, split on commas). -/
def extractSelectFieldsOld (q : Str) : List Str :=
  match selectCapture q with
  | none => []
  | some cap => ((splitOnChar ',' cap).map trimStr).filter (fun f => !f.isEmpty)

/-! ## Raw-JSON registry semantics (for the load-robustness contract)

The generated JSON artifacts are typed as having all of `fields`, `metrics`
and `segments`; the robustness claim quantifies over artifacts where a key
may be absent, so here entries carry `Option` groups and each lookup is
embedded with JavaScript evaluation semantics: `Object.entries(undefined)`
throws a `TypeError`, modelled as `Except.error ()`. -/

structure RawResourceData where
  fields : Option (List (Str × List (Str × Str)))
  metrics : Option (List (Str × Str))
  segments : Option (List (Str × Str))
deriving DecidableEq

abbrev RawCatalog := List (Str × RawResourceData)

def lookupRaw (cat : RawCatalog) (r : Str) : Option RawResourceData :=
  (cat.find? (fun p => p.1 = r)).map (·.2)

/-- Explicit-version `getFieldsForResource` (`schema.ts`): only
`if (!data) return []` guards the entry; each `Object.entries(data.X)`
throws when the key is absent. -/
def getFieldsForResourceE (cat : RawCatalog) (r : Str) :
    Except Unit (List FieldDefinition) :=
  match lookupRaw cat r with
  | none => .ok []
  | some d =>
      match d.fields with
      | none => .error ()
      | some fs =>
          match d.metrics with
          | none => .error ()
          | some ms =>
              match d.segments with
              | none => .error ()
              | some sg =>
                  .ok (List.insertionSort nameLe
                    ((fs.flatMap (fun g =>
                        g.2.map (fun fd => ⟨fd.1, tyString, g.1 ++ '.' :: fd.1, some fd.2⟩)))
                      ++ ms.map (fun m => ⟨m.1, tyMetric, grpMetrics ++ '.' :: m.1, some m.2⟩)
                      ++ sg.map (fun m => ⟨m.1, tySegment, grpSegments ++ '.' :: m.1, some m.2⟩)))

/-- `getMetricsForResource`: `if (!data || !data.metrics) return []`. -/
def getMetricsForResourceE (cat : RawCatalog) (r : Str) :
    Except Unit (List FieldDefinition) :=
  match lookupRaw cat r with
  | none => .ok []
  | some d =>
      match d.metrics with
      | none => .ok []
      | some ms => .ok (ms.map (fun m => ⟨m.1, tyMetric, grpMetrics ++ '.' :: m.1, some m.2⟩))

/-- `getSegmentsForResource`: `if (!data || !data.segments) return []`. -/
def getSegmentsForResourceE (cat : RawCatalog) (r : Str) :
    Except Unit (List FieldDefinition) :=
  match lookupRaw cat r with
  | none => .ok []
  | some d =>
      match d.segments with
      | none => .ok []
      | some sg => .ok (sg.map (fun m => ⟨m.1, tySegment, grpSegments ++ '.' :: m.1, some m.2⟩))

/-! ## Model catalogs -/

/-- Modelled from the spec: the versioned JSON schema artifacts
(`src/schemas/fields-v{19,20,21}.json`) consumed by the registry are produced
by the external extraction tool and are not among the analysed sources.
This catalog follows the spec's data-model examples (§3, §8): resources with
attribution-prefixed field groups, metrics (`metrics.*`) and segments
(`segments.*`), including the fields named in the spec's testable
properties (`campaign.id`, `campaign.name`, `campaign.status`,
`campaign.client`, `metrics.clicks`, `segments.date`). -/
def specCatalog : Catalog :=
  [ ("ad_group".data,
      ⟨[("ad_group".data, [("id".data, "doc".data), ("name".data, "doc".data)])],
       [("clicks".data, "doc".data)], [("date".data, "doc".data)]⟩),
    ("campaign".data,
      ⟨[("campaign".data,
          [("id".data, "doc".data), ("name".data, "doc".data),
           ("status".data, "doc".data), ("client".data, "doc".data)])],
       [("clicks".data, "doc".data), ("impressions".data, "doc".data)],
       [("date".data, "doc".data)]⟩),
    ("customer_client".data,
      ⟨[("customer_client".data,
          [("client_customer".data, "doc".data), ("descriptive_name".data, "doc".data)])],
       [], []⟩) ]

/-- Modelled from the spec: a catalog entry with a nested field name
(`asset.text_asset.text`), the shape the schema extraction script produces
for nested proto fields ("For nested fields (e.g.,
network_settings.target_google_search)"). -/
def assetCatalog : Catalog :=
  [ ("asset".data,
      ⟨[("asset".data, [("id".data, "doc".data), ("text_asset.text".data, "doc".data)])],
       [("clicks".data, "doc".data)], []⟩) ]

/-! ## C3 — missing SELECT and FROM -/

/-- C3: for a query whose cleaned text contains no whole-word `SELECT` and no
whole-word `FROM`, `validateQuery` returns exactly the two errors
`MISSING_SELECT` then `MISSING_FROM` (in that order) and nothing else — the
`MISSING_FROM` branch returns immediately, so no resource or field checks
contribute errors. -/
theorem missingSelectFrom_exact (cat : Catalog) (q : Str)
    (h1 : containsWordCI kwSelect (stripTL q) = false)
    (h2 : containsWordCI kwFrom (stripTL q) = false) :
    validateQuery cat q =
      ⟨false,
       [⟨.MISSING_SELECT, msgMissingSelect, 0, 0, (stripTL q).length, none, none, none⟩,
        ⟨.MISSING_FROM, msgMissingFrom, 0, 0, (stripTL q).length, none, none, none⟩]⟩ := by
  unfold validateQuery validateCleaned
  simp [h1, h2]

/-- Witness for C3 at the spec's example `"WHERE x = 1"`. -/
theorem missingSelectFrom_exact_witness :
    (validateQuery specCatalog ("WHERE x = 1".data)).valid = false ∧
    (validateQuery specCatalog ("WHERE x = 1".data)).errors.map (·.type) =
      [.MISSING_SELECT, .MISSING_FROM] := by
  rw [missingSelectFrom_exact specCatalog ("WHERE x = 1".data) (by decide) (by decide)]
  exact ⟨rfl, rfl⟩

/-! ## C8 — completion is total and clamps the cursor offset -/

def clampPos (q : Str) (position : Int) : Int :=
  max 0 (min position (q.length : Int))

theorem substrTo_clamp (q : Str) (position : Int) :
    substrTo q position = substrTo q (clampPos q position) := by
  unfold substrTo clampPos
  by_cases hneg : position < 0
  · have h0 : max 0 (min position (q.length : Int)) = 0 := by omega
    simp [hneg, h0]
  · push_neg at hneg
    by_cases hle : position ≤ (q.length : Int)
    · have h0 : max 0 (min position (q.length : Int)) = position := by omega
      rw [h0]
    · push_neg at hle
      have h0 : max 0 (min position (q.length : Int)) = (q.length : Int) := by omega
      rw [h0, if_neg (by omega), if_neg (by omega),
        List.take_of_length_le (by omega), List.take_of_length_le (by simp)]

/-- C8: `determineContext` and `getCompletions` are total functions of the
query and an arbitrary integer cursor offset, and an out-of-range offset
(negative or beyond the text) behaves exactly as the clamped offset —
degradation instead of an exception. -/
theorem completions_clamp_offset (cat : Catalog) (q : Str) (position : Int) :
    determineContext q position = determineContext q (clampPos q position) ∧
    getCompletions cat q position = getCompletions cat q (clampPos q position) := by
  have h := substrTo_clamp q position
  constructor
  · unfold determineContext
    rw [h]
  · unfold getCompletions determineContext
    rw [h]

/-! ## C6 — registry lookups on raw (possibly deviant) catalog entries -/

/-- A raw catalog whose `campaign` entry lacks the `metrics` key. -/
def rawMissing : RawCatalog :=
  [("campaign".data,
     ⟨some [("campaign".data, [("id".data, "doc".data)])], none, some []⟩)]

/-- C6 counterexample: on a catalog entry whose `metrics` key is absent,
`getFieldsForResource` does not degrade to empty collections — it evaluates
`Object.entries(data.metrics)` on `undefined` and throws, while the claim
demands an empty result.  (`getMetricsForResource` on the same entry does
degrade.) -/
theorem getFields_throws_on_missing_key :
    getFieldsForResourceE rawMissing ("campaign".data) = .error () ∧
    getMetricsForResourceE rawMissing ("campaign".data) = .ok [] := by
  exact ⟨rfl, rfl⟩

/-- C6 amended: `getMetricsForResource` and `getSegmentsForResource` never
throw (an unknown resource or an absent own key degrades to `[]`), and
`getFieldsForResource` never throws for an unknown resource; but for a
present entry `getFieldsForResource` succeeds exactly when all three of
`fields`, `metrics`, `segments` are present — an absent key makes it throw
rather than degrade. -/
theorem registry_lookup_robustness (cat : RawCatalog) (r : Str) :
    (getMetricsForResourceE cat r).isOk = true ∧
    (getSegmentsForResourceE cat r).isOk = true ∧
    (lookupRaw cat r = none →
      getFieldsForResourceE cat r = .ok [] ∧
      getMetricsForResourceE cat r = .ok [] ∧
      getSegmentsForResourceE cat r = .ok []) ∧
    (∀ d, lookupRaw cat r = some d →
      ((getFieldsForResourceE cat r).isOk = true ↔
        (d.fields ≠ none ∧ d.metrics ≠ none ∧ d.segments ≠ none))) := by
  unfold getFieldsForResourceE getMetricsForResourceE getSegmentsForResourceE
  cases hl : lookupRaw cat r with
  | none => simp [hl, Except.isOk, Except.toBool]
  | some d =>
      cases hf : d.fields <;> cases hm : d.metrics <;> cases hs : d.segments <;>
        simp [hl, hf, hm, hs, Except.isOk, Except.toBool]

/-- Witness for C6 (amended) at a concrete raw catalog: the unknown resource
degrades everywhere, and the deviant entry makes `getFieldsForResource`
fail while the metrics lookup stays total. -/
theorem registry_lookup_robustness_witness :
    getFieldsForResourceE rawMissing ("ad_group".data) = .ok [] ∧
    (getMetricsForResourceE rawMissing ("campaign".data)).isOk = true ∧
    (getFieldsForResourceE rawMissing ("campaign".data)).isOk = false := by
  have h1 := (registry_lookup_robustness rawMissing ("ad_group".data)).2.2.1 (by rfl)
  have h2 := (registry_lookup_robustness rawMissing ("campaign".data)).1
  have h3 := (registry_lookup_robustness rawMissing ("campaign".data)).2.2.2
    ⟨some [("campaign".data, [("id".data, "doc".data)])], none, some []⟩ (by rfl)
  refine ⟨h1.1, h2, ?_⟩
  by_contra hc
  simp at hc
  have := h3.mp hc
  simp at this

/-! ## C2 — result invariants and error discovery order -/

/-- The discovery stage of each error kind in `validateQuery`'s control flow
(SELECT/FROM checks, then FROM-syntax, then resource, then field checks). -/
def errStage : ValidationErrorType → Nat
  | .MISSING_SELECT => 0
  | .MISSING_FROM => 1
  | .INVALID_SYNTAX => 2
  | .INVALID_RESOURCE => 3
  | .INVALID_FIELD => 4
  | .INVALID_OPERATOR => 5

theorem mem_selectFieldErrors {cat : Catalog} {lines : List Str} {cleaned rn : Str}
    {e : ValidationError} (h : e ∈ selectFieldErrors cat lines cleaned rn) :
    ∃ f, e = invalidFieldError cat lines rn kwSelect f := by
  unfold selectFieldErrors at h
  cases hc : selectCapture cleaned with
  | none => rw [hc] at h; simp at h
  | some cap =>
      rw [hc] at h
      simp only [List.mem_filterMap] at h
      obtain ⟨a, _, ha⟩ := h
      by_cases hmem : a ∈ (getFieldsForResource cat rn).map (·.description)
      · rw [if_pos hmem] at ha; cases ha
      · rw [if_neg hmem] at ha
        exact ⟨a, (Option.some_inj.mp ha).symm⟩

theorem mem_whereFieldErrors {cat : Catalog} {lines : List Str} {cleaned rn : Str}
    {e : ValidationError} (h : e ∈ whereFieldErrors cat lines cleaned rn) :
    ∃ f, e = invalidFieldError cat lines rn kwWhere f := by
  unfold whereFieldErrors at h
  cases hc : whereCapture cleaned with
  | none => rw [hc] at h; simp at h
  | some cap =>
      rw [hc] at h
      simp only [List.mem_filterMap] at h
      obtain ⟨a, _, ha⟩ := h
      by_cases hmem : a ∈ (getFieldsForResource cat rn).map (·.description)
      · rw [if_pos hmem] at ha; cases ha
      · rw [if_neg hmem] at ha
        exact ⟨a, (Option.some_inj.mp ha).symm⟩

theorem invalidFieldError_type (cat : Catalog) (lines : List Str) (rn kw f : Str) :
    (invalidFieldError cat lines rn kw f).type = .INVALID_FIELD := rfl

theorem pairwise_stage_of_invalid {l : List ValidationError}
    (h : ∀ e ∈ l, e.type = .INVALID_FIELD) :
    l.Pairwise (fun a b => errStage a.type ≤ errStage b.type) := by
  induction l with
  | nil => simp
  | cons x xs ih =>
      rw [List.pairwise_cons]
      refine ⟨fun b hb => ?_, ih (fun e he => h e (List.mem_cons_of_mem x he))⟩
      rw [h x (List.mem_cons_self x xs), h b (List.mem_cons_of_mem x hb)]

theorem selectFieldErrors_all_invalid (cat : Catalog) (lines : List Str)
    (cleaned rn : Str) :
    ∀ e ∈ selectFieldErrors cat lines cleaned rn, e.type = .INVALID_FIELD := by
  intro e he
  obtain ⟨f, rfl⟩ := mem_selectFieldErrors he
  rfl

theorem whereFieldErrors_all_invalid (cat : Catalog) (lines : List Str)
    (cleaned rn : Str) :
    ∀ e ∈ whereFieldErrors cat lines cleaned rn, e.type = .INVALID_FIELD := by
  intro e he
  obtain ⟨f, rfl⟩ := mem_whereFieldErrors he
  rfl

/-- C2: in every `validateQuery` result, `valid` holds iff the error list is
empty — on every return path — and the errors appear in discovery order:
the stage of each error kind is monotone along the list (SELECT/FROM
checks, then FROM-syntax, then the resource check, then field checks), and
whenever field errors occur they form a tail consisting of the SELECT-clause
errors followed by the WHERE-clause errors. -/
theorem validation_result_invariants (cat : Catalog) (q : Str) :
    ((validateQuery cat q).valid = true ↔ (validateQuery cat q).errors = []) ∧
    (validateQuery cat q).errors.Pairwise
      (fun a b => errStage a.type ≤ errStage b.type) ∧
    ((∀ e ∈ (validateQuery cat q).errors, e.type ≠ .INVALID_FIELD) ∨
      ∃ rn pre, fromCapture (stripTL q) = some rn ∧
        (validateQuery cat q).errors =
          pre ++ selectFieldErrors cat (splitOnChar '\n' q) (stripTL q) rn
              ++ whereFieldErrors cat (splitOnChar '\n' q) (stripTL q) rn ∧
        ∀ e ∈ pre, e.type ≠ .INVALID_FIELD) := by
  unfold validateQuery validateCleaned
  cases hS : containsWordCI kwSelect (stripTL q) <;>
    cases hF : containsWordCI kwFrom (stripTL q)
  · -- no SELECT, no FROM: two errors, early return
    simp [hS, hF, List.pairwise_cons, errStage]
  · -- no SELECT, FROM present
    cases hFC : fromCapture (stripTL q) with
    | none =>
        simp [hS, hF, hFC, List.pairwise_cons, errStage]
    | some rn =>
        by_cases hres : rn ∈ getResourceNames cat
        · have hsel := selectFieldErrors_all_invalid cat (splitOnChar '\n' q) (stripTL q) rn
          have hwhe := whereFieldErrors_all_invalid cat (splitOnChar '\n' q) (stripTL q) rn
          simp only [hS, hF, hFC, if_pos hres, Bool.false_eq_true, eq_self_iff_true,
            if_true, if_false]
          refine ⟨by simp, ?_, ?_⟩
          · simp only [List.cons_append, List.nil_append]
            rw [List.pairwise_cons]
            constructor
            · intro b hb
              rcases List.mem_append.mp hb with hb1 | hb2
              · rw [hsel b hb1]; simp [errStage]
              · rw [hwhe b hb2]; simp [errStage]
            · rw [List.pairwise_append]
              exact ⟨pairwise_stage_of_invalid hsel, pairwise_stage_of_invalid hwhe,
                fun a ha b hb => by rw [hsel a ha, hwhe b hb]⟩
          · right
            refine ⟨rn, [⟨.MISSING_SELECT, msgMissingSelect, 0, 0, (stripTL q).length,
              none, none, none⟩], rfl, by simp, ?_⟩
            intro e he
            simp at he
            rw [he]
            simp
        · simp [hS, hF, hFC, hres, List.pairwise_cons, errStage]
  · -- SELECT present, no FROM
    simp [hS, hF, List.pairwise_cons, errStage]
  · -- SELECT and FROM present
    cases hFC : fromCapture (stripTL q) with
    | none =>
        simp [hS, hF, hFC, List.pairwise_cons, errStage]
    | some rn =>
        by_cases hres : rn ∈ getResourceNames cat
        · have hsel := selectFieldErrors_all_invalid cat (splitOnChar '\n' q) (stripTL q) rn
          have hwhe := whereFieldErrors_all_invalid cat (splitOnChar '\n' q) (stripTL q) rn
          simp only [hS, hF, hFC, if_pos hres, if_true]
          refine ⟨by simp, ?_, ?_⟩
          · simp only [List.nil_append]
            rw [List.pairwise_append]
            exact ⟨pairwise_stage_of_invalid hsel, pairwise_stage_of_invalid hwhe,
              fun a ha b hb => by rw [hsel a ha, hwhe b hb]⟩
          · right
            exact ⟨rn, [], rfl, by simp, by simp⟩
        · simp [hS, hF, hFC, hres, List.pairwise_cons, errStage]

/-! ## C5 — the suggestion engine -/

/-- The minimum case-insensitive distance from `input` to a candidate list,
as accumulated by the `findClosestMatch` loop. -/
def minDistCI (input : Str) : List Str → Nat
  | [] => 0
  | c :: cs => (cs.map (distCI input)).foldl Nat.min (distCI input c)

theorem fcmFold_spec (input : Str) :
    ∀ (cs : List Str) (m0 : Nat) (b0 : Str),
      ∃ m b, cs.foldl (fcmStep input) (some (m0, b0)) = some (m, b) ∧
        m ≤ m0 ∧ (∀ x ∈ cs, m ≤ distCI input x) ∧
        m = (cs.map (distCI input)).foldl Nat.min m0 ∧
        ((b = b0 ∧ m = m0) ∨
          (∃ pre suf, cs = pre ++ b :: suf ∧ distCI input b = m ∧ m < m0 ∧
            ∀ x ∈ pre, m < distCI input x)) := by
  intro cs
  induction cs with
  | nil =>
      intro m0 b0
      exact ⟨m0, b0, rfl, le_refl m0, by simp, by simp, Or.inl ⟨rfl, rfl⟩⟩
  | cons c cs ih =>
      intro m0 b0
      by_cases hd : distCI input c < m0
      · obtain ⟨m, b, heq, hle, hall, hmin, hcase⟩ := ih (distCI input c) c
        refine ⟨m, b, ?_, by omega, ?_, ?_, ?_⟩
        · rw [List.foldl_cons]
          have hstep : fcmStep input (some (m0, b0)) c = some (distCI input c, c) := by
            unfold fcmStep; simp [hd]
          rw [hstep, heq]
        · intro x hx
          rcases List.mem_cons.mp hx with rfl | hx2
          · exact hle
          · exact hall x hx2
        · rw [List.map_cons, List.foldl_cons]
          have : Nat.min m0 (distCI input c) = distCI input c := by
            simp [Nat.min_def]; omega
          rw [this, hmin]
        · rcases hcase with ⟨rfl, rfl⟩ | ⟨pre, suf, rfl, hb, hlt, hpre⟩
          · exact Or.inr ⟨[], cs, rfl, rfl, hd, by simp⟩
          · refine Or.inr ⟨c :: pre, suf, rfl, hb, by omega, ?_⟩
            intro x hx
            rcases List.mem_cons.mp hx with rfl | hx2
            · omega
            · exact hpre x hx2
      · push_neg at hd
        obtain ⟨m, b, heq, hle, hall, hmin, hcase⟩ := ih m0 b0
        refine ⟨m, b, ?_, hle, ?_, ?_, ?_⟩
        · rw [List.foldl_cons]
          have hstep : fcmStep input (some (m0, b0)) c = some (m0, b0) := by
            unfold fcmStep; simp [Nat.not_lt.mpr hd]
          rw [hstep, heq]
        · intro x hx
          rcases List.mem_cons.mp hx with rfl | hx2
          · omega
          · exact hall x hx2
        · rw [List.map_cons, List.foldl_cons]
          have : Nat.min m0 (distCI input c) = m0 := by
            simp [Nat.min_def]; omega
          rw [this, hmin]
        · rcases hcase with ⟨rfl, rfl⟩ | ⟨pre, suf, rfl, hb, hlt, hpre⟩
          · exact Or.inl ⟨rfl, rfl⟩
          · refine Or.inr ⟨c :: pre, suf, rfl, hb, hlt, ?_⟩
            intro x hx
            rcases List.mem_cons.mp hx with rfl | hx2
            · omega
            · exact hpre x hx2

/-- `findClosestMatch` only ever answers with a member of the candidate
list. -/
theorem findClosestMatch_mem {input : Str} {cands : List Str} {s : Str}
    (h : findClosestMatch input cands = some s) : s ∈ cands := by
  unfold findClosestMatch at h
  cases cands with
  | nil => simp at h
  | cons c cs =>
      simp only [reduceCtorEq, if_false, List.cons_ne_nil, if_neg] at h
      obtain ⟨m, b, heq, _, _, _, hcase⟩ := fcmFold_spec input cs (distCI input c) c
      rw [List.foldl_cons] at h
      have hstep : fcmStep input none c = some (distCI input c, c) := rfl
      rw [hstep, heq] at h
      have h2 : (if 2 * m ≤ input.length then some b else none) = some s := h
      by_cases hth : 2 * m ≤ input.length
      · rw [if_pos hth] at h2
        cases h2
        rcases hcase with ⟨rfl, _⟩ | ⟨pre, suf, hsplit, _, _, _⟩
        · exact List.mem_cons_self _ _
        · rw [hsplit]
          exact List.mem_cons_of_mem c (List.mem_append_right pre (List.mem_cons_self _ _))
      · rw [if_neg hth] at h2
        cases h2

/-- C5: for a non-empty candidate list, `findClosestMatch` returns the
candidate with minimum case-insensitive Levenshtein distance to the input
(ties broken by the candidate appearing first in the supplied sequence: all
earlier candidates are strictly farther), and returns `none` exactly when
the list is empty or the minimum distance exceeds `⌊input.length / 2⌋`
(i.e. `input.length < 2 * minimum`). -/
theorem findClosestMatch_spec (input : Str) (cands : List Str) :
    (∀ m, findClosestMatch input cands = some m →
      (m ∈ cands ∧ 2 * distCI input m ≤ input.length ∧
       (∀ c ∈ cands, distCI input m ≤ distCI input c) ∧
       ∃ pre suf, cands = pre ++ m :: suf ∧
         ∀ c ∈ pre, distCI input m < distCI input c)) ∧
    (findClosestMatch input cands = none ↔
      (cands = [] ∨ input.length < 2 * minDistCI input cands)) := by
  unfold findClosestMatch
  cases cands with
  | nil => simp
  | cons c cs =>
      simp only [reduceCtorEq, if_false, List.cons_ne_nil, if_neg]
      obtain ⟨mv, b, heq, hle, hall, hmin, hcase⟩ := fcmFold_spec input cs (distCI input c) c
      rw [List.foldl_cons]
      have hstep : fcmStep input none c = some (distCI input c, c) := rfl
      rw [hstep, heq]
      have hdistb : distCI input b = mv := by
        rcases hcase with ⟨rfl, rfl⟩ | ⟨_, _, _, hb, _, _⟩
        · rfl
        · exact hb
      constructor
      · intro m hm
        have hm2 : (if 2 * mv ≤ input.length then some b else none) = some m := hm
        by_cases hth : 2 * mv ≤ input.length
        · rw [if_pos hth] at hm2
          cases hm2
          refine ⟨?_, by omega, ?_, ?_⟩
          · rcases hcase with ⟨rfl, _⟩ | ⟨pre, suf, hsplit, _, _, _⟩
            · exact List.mem_cons_self _ _
            · rw [hsplit]
              exact List.mem_cons_of_mem c (List.mem_append_right pre (List.mem_cons_self _ _))
          · intro x hx
            rcases List.mem_cons.mp hx with rfl | hx2
            · omega
            · have := hall x hx2; omega
          · rcases hcase with ⟨rfl, hm0⟩ | ⟨pre, suf, hsplit, _, hlt, hpre⟩
            · exact ⟨[], cs, rfl, by simp⟩
            · refine ⟨c :: pre, suf, by simp [hsplit], ?_⟩
              intro x hx
              rcases List.mem_cons.mp hx with rfl | hx2
              · omega
              · have := hpre x hx2; omega
        · rw [if_neg hth] at hm2
          cases hm2
      · have hminv : minDistCI input (c :: cs) = mv := by
          unfold minDistCI
          exact hmin.symm
        rw [hminv]
        show (if 2 * mv ≤ input.length then some b else none) = none ↔ _
        by_cases hth : 2 * mv ≤ input.length
        · rw [if_pos hth]
          simp
          omega
        · rw [if_neg hth]
          simp
          omega

/-- Witness for C5 at the spec's example: `suggest("campain",
["campaign", "ad_group"])` returns `"campaign"`, a member of the candidate
list within the distance threshold. -/
theorem findClosestMatch_spec_witness :
    findClosestMatch ("campain".data) ["campaign".data, "ad_group".data] =
      some ("campaign".data) ∧
    "campaign".data ∈ ["campaign".data, "ad_group".data] ∧
    2 * distCI ("campain".data) ("campaign".data) ≤ ("campain".data).length := by
  have h := (findClosestMatch_spec ("campain".data)
    ["campaign".data, "ad_group".data]).1 ("campaign".data) (by decide)
  exact ⟨by decide, h.1, h.2.1⟩

/-! ## C10 — suggestions always come from the candidate set -/

/-- C10: every suggestion carried by a `validateQuery` error is a member of
the candidate set it was computed against: a resource suggestion is one of
the catalog's resource names, and a field suggestion is one of the resolved
resource's qualified field names. -/
theorem suggestions_from_candidates (cat : Catalog) (q : Str) (e : ValidationError)
    (he : e ∈ (validateQuery cat q).errors) (s : Str) (hs : e.suggestion = some s) :
    (e.type = .INVALID_RESOURCE ∧ s ∈ getResourceNames cat) ∨
    (e.type = .INVALID_FIELD ∧ ∃ rn, e.resource = some rn ∧
      s ∈ (getFieldsForResource cat rn).map (·.description)) := by
  unfold validateQuery validateCleaned at he
  cases hS : containsWordCI kwSelect (stripTL q) <;>
    cases hF : containsWordCI kwFrom (stripTL q)
  · simp [hS, hF] at he
    rcases he with rfl | rfl <;> simp at hs
  · cases hFC : fromCapture (stripTL q) with
    | none =>
        simp [hS, hF, hFC] at he
        rcases he with rfl | rfl <;> simp at hs
    | some rn =>
        by_cases hres : rn ∈ getResourceNames cat
        · simp only [hS, hF, hFC, if_pos hres, Bool.false_eq_true, eq_self_iff_true,
            if_true, if_false] at he
          simp at he
          rcases he with rfl | hsel | hwhe
          · simp at hs
          · obtain ⟨f, rfl⟩ := mem_selectFieldErrors hsel
            exact Or.inr ⟨rfl, rn, rfl, findClosestMatch_mem hs⟩
          · obtain ⟨f, rfl⟩ := mem_whereFieldErrors hwhe
            exact Or.inr ⟨rfl, rn, rfl, findClosestMatch_mem hs⟩
        · simp [hS, hF, hFC, hres] at he
          rcases he with rfl | rfl
          · simp at hs
          · exact Or.inl ⟨rfl, findClosestMatch_mem hs⟩
  · simp [hS, hF] at he
    subst he
    simp at hs
  · cases hFC : fromCapture (stripTL q) with
    | none =>
        simp [hS, hF, hFC] at he
        subst he
        simp at hs
    | some rn =>
        by_cases hres : rn ∈ getResourceNames cat
        · simp only [hS, hF, hFC, if_pos hres, Bool.false_eq_true, eq_self_iff_true,
            if_true, if_false] at he
          simp at he
          rcases he with hsel | hwhe
          · obtain ⟨f, rfl⟩ := mem_selectFieldErrors hsel
            exact Or.inr ⟨rfl, rn, rfl, findClosestMatch_mem hs⟩
          · obtain ⟨f, rfl⟩ := mem_whereFieldErrors hwhe
            exact Or.inr ⟨rfl, rn, rfl, findClosestMatch_mem hs⟩
        · simp [hS, hF, hFC, hres] at he
          subst he
          exact Or.inl ⟨rfl, findClosestMatch_mem hs⟩

/-- The `INVALID_RESOURCE` error produced for `SELECT x FROM campain`
against the model catalog. -/
def c10Err : ValidationError :=
  ⟨.INVALID_RESOURCE, msgInvalidResource ("campain".data), 0, 14, 7,
   some ("campain".data), none, some ("campaign".data)⟩

/-- Witness for C10: the resource suggestion `campaign` attached to the
`INVALID_RESOURCE` error for `campain` is one of the catalog's resource
names. -/
theorem suggestions_from_candidates_witness :
    "campaign".data ∈ getResourceNames specCatalog := by
  have h := suggestions_from_candidates specCatalog ("SELECT x FROM campain".data)
    c10Err (by decide) ("campaign".data) (by decide)
  rcases h with ⟨_, hm⟩ | ⟨hty, _⟩
  · exact hm
  · exact absurd hty (by decide)

/-! ## C4 — template-literal interpolation stripping -/

/-- Full match of the interpolation body pattern `(?:[^{}]|\{[^}]*\})*`
(balanced on one level of nested braces), as the same two-state scan as
`matchInnerSt` but requiring the whole string to be consumed at the outer
level. -/
def oneLevelSt : Bool → Str → Bool
  | b, [] => !b
  | false, c :: cs =>
      if c = '}' then false
      else if c = '{' then oneLevelSt true cs
      else oneLevelSt false cs
  | true, c :: cs =>
      if c = '}' then oneLevelSt false cs
      else oneLevelSt true cs

def oneLevel (e : Str) : Bool := oneLevelSt false e

theorem matchInnerSt_span :
    ∀ (e : Str) (b : Bool) (t : Str), oneLevelSt b e = true →
      matchInnerSt b (e ++ '}' :: t) = some t := by
  intro e
  induction e with
  | nil =>
      intro b t h
      cases b with
      | false => rfl
      | true => simp [oneLevelSt] at h
  | cons c cs ih =>
      intro b t h
      cases b with
      | false =>
          rw [oneLevelSt] at h
          by_cases hc : c = '}'
          · simp [hc] at h
          · by_cases hb : c = '{'
            · rw [if_neg hc, if_pos hb] at h
              rw [List.cons_append, matchInnerSt, if_neg (by rw [hb]; decide),
                if_pos hb]
              exact ih true t h
            · rw [if_neg hc, if_neg hb] at h
              rw [List.cons_append, matchInnerSt, if_neg hc, if_neg hb]
              exact ih false t h
      | true =>
          rw [oneLevelSt] at h
          by_cases hc : c = '}'
          · rw [if_pos hc] at h
            rw [List.cons_append, matchInnerSt, if_pos hc]
            exact ih false t h
          · rw [if_neg hc] at h
            rw [List.cons_append, matchInnerSt, if_neg hc]
            exact ih true t h

theorem stripTLF_nil : ∀ f, stripTLF f ([] : Str) = [] := by
  intro f; cases f <;> rfl

theorem stripTLF_fuel :
    ∀ (f1 : Nat) (s : Str) (f2 : Nat), s.length ≤ f1 → s.length ≤ f2 →
      stripTLF f1 s = stripTLF f2 s := by
  intro f1
  induction f1 with
  | zero =>
      intro s f2 h1 _
      have hs : s = [] := List.length_eq_zero.mp (Nat.le_zero.mp h1)
      subst hs
      rw [stripTLF_nil, stripTLF_nil]
  | succ n ih =>
      intro s f2 h1 h2
      cases s with
      | nil => rw [stripTLF_nil, stripTLF_nil]
      | cons c rest =>
          cases f2 with
          | zero => simp at h2
          | succ m =>
              simp only [List.length_cons, Nat.succ_le_succ_iff] at h1 h2
              cases rest with
              | nil =>
                  simp only [stripTLF]
                  rw [stripTLF_nil, stripTLF_nil]
              | cons d rest2 =>
                  simp only [stripTLF]
                  by_cases hc : c = '$'
                  · rw [if_pos hc, if_pos hc]
                    by_cases hd : d = '{'
                    · rw [if_pos hd, if_pos hd]
                      cases hm : matchInner rest2 with
                      | none =>
                          simp only [hm]
                          rw [ih (d :: rest2) m h1 h2]
                      | some r =>
                          have hr := matchInner_length hm
                          simp only [hm, List.length_cons] at *
                          rw [ih r m (by omega) (by omega)]
                    · rw [if_neg hd, if_neg hd, ih (d :: rest2) m h1 h2]
                  · rw [if_neg hc, if_neg hc, ih (d :: rest2) m h1 h2]

/-- Stepping `stripTL` over a non-`'$'` head character. -/
theorem stripTL_cons_ne (c : Char) (s : Str) (hc : c ≠ '$') :
    stripTL (c :: s) = c :: stripTL s := by
  unfold stripTL
  cases s with
  | nil => simp only [List.length_cons, List.length_nil, stripTLF, if_neg hc]
  | cons d rest =>
      simp only [List.length_cons, stripTLF, if_neg hc]

/-- Pushing `stripTL` through a prefix without `'$'` characters. -/
theorem stripTL_append_noDollar :
    ∀ (p rest : Str), (∀ c ∈ p, c ≠ '$') →
      stripTL (p ++ rest) = p ++ stripTL rest := by
  intro p
  induction p with
  | nil => intro rest _; rfl
  | cons c p2 ih =>
      intro rest hp
      rw [List.cons_append,
        stripTL_cons_ne c (p2 ++ rest) (hp c (List.mem_cons_self c p2)),
        ih rest (fun x hx => hp x (List.mem_cons_of_mem c hx)), List.cons_append]

/-- A one-level-balanced interpolation span is replaced by the placeholder
and scanning resumes after its closing brace. -/
theorem stripTL_span (expr t : Str) (h : oneLevel expr = true) :
    stripTL ('$' :: '\x7b' :: (expr ++ '}' :: t)) = placeholderStr ++ stripTL t := by
  have hmi : matchInner (expr ++ '}' :: t) = some t := matchInnerSt_span expr false t h
  unfold stripTL
  simp only [List.length_cons, stripTLF, hmi, reduceIte]
  rw [stripTLF_fuel ((expr ++ '}' :: t).length + 1) t t.length (by simp; omega) (le_refl _)]

def c4pre : Str := "SELECT campaign.id FROM campaign WHERE campaign.client = '".data

def c4qa : Str := c4pre ++ ['$', '\x7b']

def c4qb : Str := ['\x7d', '\'']

def c4cleaned : Str := c4pre ++ placeholderStr ++ ['\'']

theorem stripTL_c4 (expr : Str) (h : oneLevel expr = true) :
    stripTL (c4qa ++ expr ++ c4qb) = c4cleaned := by
  have hr : c4qa ++ expr ++ c4qb = c4pre ++ ('$' :: '\x7b' :: (expr ++ '}' :: ['\''])) := by
    simp [c4qa, c4qb, List.append_assoc]
  rw [hr, stripTL_append_noDollar c4pre _ (by decide), stripTL_span expr _ h]
  rfl

/-- The cleaned text of the C4 query validates with no errors, whatever the
original query text was (the original is consulted only for error
positions). -/
theorem validateCleaned_c4 (q : Str) :
    validateCleaned specCatalog q c4cleaned = ⟨true, []⟩ := rfl

/-- C4 counterexample: the replacement pattern is balanced on only one level
of nested braces, so the two-level interpolation expression
`{x:{}}.a.b` is replaced only partially, the residue `.a.b}'` reaches the
WHERE field check, and the query is rejected with an `INVALID_FIELD` error
for `a.b` — the claim's "valid == true for every interpolation expression
expr" fails. -/
theorem interpolation_counterexample :
    (validateQuery specCatalog
      (c4qa ++ "\x7bx:\x7b\x7d\x7d.a.b".data ++ c4qb)).valid = false ∧
    (validateQuery specCatalog
      (c4qa ++ "\x7bx:\x7b\x7d\x7d.a.b".data ++ c4qb)).errors.map (·.field) =
      [some ("a.b".data)] := by
  exact ⟨by decide, by decide⟩

/-- C4 amended: `validateQuery` replaces every `${...}` interpolation span
with the fixed placeholder literal before any keyword or field checks, and
for every interpolation expression that is balanced on at most one level of
nested braces the spec's query validates with `valid == true` regardless of
the expression's content; deeper nesting can leave a residue that triggers
field errors. -/
theorem interpolation_oneLevel_valid (expr : Str) (h : oneLevel expr = true) :
    stripTL (c4qa ++ expr ++ c4qb) = c4cleaned ∧
    validateQuery specCatalog (c4qa ++ expr ++ c4qb) = ⟨true, []⟩ := by
  have hstrip := stripTL_c4 expr h
  refine ⟨hstrip, ?_⟩
  unfold validateQuery
  rw [hstrip]
  exact validateCleaned_c4 _

/-- Witness for C4 (amended) at the interpolation expression
`this.customerId` used by the repository's own test suite. -/
theorem interpolation_oneLevel_valid_witness :
    oneLevel ("this.customerId".data) = true ∧
    validateQuery specCatalog (c4qa ++ "this.customerId".data ++ c4qb) =
      ⟨true, []⟩ :=
  ⟨by decide, (interpolation_oneLevel_valid ("this.customerId".data) (by decide)).2⟩

/-! ## String-scanning lemma kit

Shared lemmas about the case-insensitive scanners, used to settle the
validator claims on queries assembled from catalog names. -/

theorem charToNat_ofNat {n : Nat} (h : n < 55296) : (Char.ofNat n).toNat = n := by
  unfold Char.ofNat
  rw [dif_pos (Or.inl h)]
  rfl

theorem char_eq_of_toNat {a b : Char} (h : a.toNat = b.toNat) : a = b :=
  Char.ext (UInt32.ext h)

theorem char_le_iff {a b : Char} : a ≤ b ↔ a.toNat ≤ b.toNat :=
  ⟨fun h => h, fun h => h⟩

/-- ASCII case folding: upper-casing `c` yields the capital letter `U`
exactly when lower-casing `c` yields the matching small letter `L`. -/
theorem upperChar_eq_iff_lowerChar (c U L : Char)
    (h1 : 'A' ≤ U) (h2 : U ≤ 'Z') (h3 : L.toNat = U.toNat + 32) :
    (upperChar c = U ↔ lowerChar c = L) := by
  have hU1 : 65 ≤ U.toNat := char_le_iff.mp h1
  have hU2 : U.toNat ≤ 90 := char_le_iff.mp h2
  unfold upperChar lowerChar
  by_cases hc : 'a' ≤ c ∧ c ≤ 'z'
  · have hc1 : 97 ≤ c.toNat := char_le_iff.mp hc.1
    have hc2 : c.toNat ≤ 122 := char_le_iff.mp hc.2
    have hnotAZ : ¬ ('A' ≤ c ∧ c ≤ 'Z') := by
      intro hh
      have h90 : c.toNat ≤ 90 := char_le_iff.mp hh.2
      omega
    rw [if_pos hc, if_neg hnotAZ]
    constructor
    · intro he
      have ht := congrArg Char.toNat he
      rw [charToNat_ofNat (by omega)] at ht
      exact char_eq_of_toNat (by omega)
    · intro he
      subst he
      exact char_eq_of_toNat (by rw [charToNat_ofNat (by omega)]; omega)
  · rw [if_neg hc]
    by_cases hc2 : 'A' ≤ c ∧ c ≤ 'Z'
    · have hcl : 65 ≤ c.toNat := char_le_iff.mp hc2.1
      have hcu : c.toNat ≤ 90 := char_le_iff.mp hc2.2
      rw [if_pos hc2]
      constructor
      · intro he
        subst he
        exact char_eq_of_toNat (by rw [charToNat_ofNat (by omega)]; omega)
      · intro he
        have ht := congrArg Char.toNat he
        rw [charToNat_ofNat (by omega)] at ht
        exact char_eq_of_toNat (by omega)
    · rw [if_neg hc2]
      constructor
      · intro he
        exact absurd (he ▸ ⟨h1, h2⟩) hc2
      · intro he
        exfalso
        apply hc
        have ht : c.toNat = U.toNat + 32 := he ▸ h3
        refine ⟨char_le_iff.mpr ?_, char_le_iff.mpr ?_⟩
        · show (97 : Nat) ≤ c.toNat
          omega
        · show c.toNat ≤ (122 : Nat)
          omega

/-- A small letter is a fixed point of `lowerChar`. -/
theorem lowerChar_of_lower {c : Char} (h1 : 97 ≤ c.toNat) (h2 : c.toNat ≤ 122) :
    lowerChar c = c := by
  unfold lowerChar
  rw [if_neg]
  intro hh
  have h90 : c.toNat ≤ 90 := char_le_iff.mp hh.2
  omega

/-- `startsWithCI` fails when the first characters already disagree after
case folding. -/
theorem startsWithCI_head_false {w0 c : Char} (w z : Str)
    (h : lowerChar w0 ≠ lowerChar c) :
    startsWithCI (w0 :: w) (c :: z) = false := by
  rw [startsWithCI]
  simp [h]

/-- `startsWithCI` only looks at a long-enough prefix of the text. -/
theorem startsWithCI_append_left :
    ∀ (w x y : Str), w.length ≤ x.length →
      startsWithCI w (x ++ y) = startsWithCI w x := by
  intro w
  induction w with
  | nil => intro x y _; rfl
  | cons w0 w' ih =>
      intro x y h
      cases x with
      | nil => simp at h
      | cons c x' =>
          rw [List.cons_append, startsWithCI, startsWithCI,
            ih x' y (by simpa using h)]

/-- A keyword without whitespace-like characters cannot match across a
space: matching `w` at the head of `x ++ ' ' :: z` fails when `x` is shorter
than `w`. -/
theorem startsWithCI_ws_cross (w : Str) (hw : ∀ c ∈ w, lowerChar c ≠ ' ') :
    ∀ (x z : Str), x.length < w.length →
      startsWithCI w (x ++ ' ' :: z) = false := by
  intro x
  induction x generalizing w with
  | nil =>
      intro z hlt
      cases w with
      | nil => simp at hlt
      | cons w0 w' =>
          apply startsWithCI_head_false
          rw [show lowerChar ' ' = ' ' from rfl]
          exact hw w0 (List.mem_cons_self w0 w')
  | cons a x' ih =>
      intro z hlt
      cases w with
      | nil => simp at hlt
      | cons w0 w' =>
          rw [List.cons_append, startsWithCI,
            ih w' (fun c hc => hw c (List.mem_cons_of_mem w0 hc)) z (by simpa using hlt)]
          simp

/-- `containsSubCI` holds iff some suffix starts with the pattern. -/
theorem containsSubCI_iff (w : Str) :
    ∀ (s : Str), containsSubCI w s = true ↔
      ∃ t, t <:+ s ∧ startsWithCI w t = true := by
  intro s
  induction s with
  | nil =>
      rw [containsSubCI]
      constructor
      · intro h
        refine ⟨[], List.nil_suffix, ?_⟩
        cases w with
        | nil => rfl
        | cons a as => simp at h
      · rintro ⟨t, ht, hst⟩
        have : t = [] := List.eq_nil_of_suffix_nil ht
        subst this
        cases w with
        | nil => simp
        | cons a as => simp [startsWithCI] at hst
  | cons c cs ih =>
      rw [containsSubCI]
      constructor
      · intro h
        rcases Bool.or_eq_true_iff.mp h with h1 | h2
        · exact ⟨c :: cs, List.suffix_refl _, h1⟩
        · obtain ⟨t, ht, hst⟩ := ih.mp h2
          exact ⟨t, ht.trans (List.suffix_cons c cs), hst⟩
      · rintro ⟨t, ht, hst⟩
        rcases List.suffix_cons_iff.mp ht with rfl | ht2
        · exact Bool.or_eq_true_iff.mpr (Or.inl hst)
        · exact Bool.or_eq_true_iff.mpr (Or.inr (ih.mpr ⟨t, ht2, hst⟩))

theorem startsWithCI_suffix_false {w t b : Str} (hs : t <:+ b)
    (h : containsSubCI w b = false) : startsWithCI w t = false := by
  by_contra hc
  rw [(containsSubCI_iff w b).mpr ⟨t, hs, by simpa using hc⟩] at h
  cases h

theorem containsSubCI_suffix_false {w t b : Str} (hs : t <:+ b)
    (h : containsSubCI w b = false) : containsSubCI w t = false := by
  by_contra hc
  obtain ⟨u, hu, hst⟩ := (containsSubCI_iff w t).mp (by simpa using hc)
  rw [(containsSubCI_iff w b).mpr ⟨u, hu.trans hs, hst⟩] at h
  cases h

/-- Splitting a suffix of an appended list. -/
theorem suffix_append_cases :
    ∀ (a b v : List Char), v <:+ a ++ b →
      v <:+ b ∨ ∃ u, u <:+ a ∧ u ≠ [] ∧ v = u ++ b := by
  intro a
  induction a with
  | nil => intro b v h; exact Or.inl (by simpa using h)
  | cons c a' ih =>
      intro b v h
      rcases List.suffix_cons_iff.mp h with rfl | h2
      · exact Or.inr ⟨c :: a', List.suffix_refl _, by simp, by simp⟩
      · rcases ih b v h2 with h3 | ⟨u, hu, hne, rfl⟩
        · exact Or.inl h3
        · exact Or.inr ⟨u, hu.trans (List.suffix_cons c a'), hne, rfl⟩

/-- The head of a non-empty suffix is an element of the list. -/
theorem head_mem_of_suffix {c : Char} {u l : List Char} (h : (c :: u) <:+ l) :
    c ∈ l :=
  h.subset (List.mem_cons_self c u)

/-- A sufficient condition for `containsSubCI w (a ++ b) = false` when `b`
begins with a space and `w` has no space-like characters: no match inside
`a`, none inside `b`, and none across the boundary. -/
theorem containsSubCI_append_false (w : Str) (hw : ∀ c ∈ w, lowerChar c ≠ ' ')
    (a b' : Str)
    (ha : containsSubCI w a = false) (hb : containsSubCI w (' ' :: b') = false) :
    containsSubCI w (a ++ ' ' :: b') = false := by
  by_contra hc
  obtain ⟨t, ht, hst⟩ := (containsSubCI_iff w _).mp (by simpa using hc)
  rcases suffix_append_cases a (' ' :: b') t ht with h1 | ⟨u, hu, hne, rfl⟩
  · rw [(containsSubCI_iff w _).mpr ⟨t, h1, hst⟩] at hb
    cases hb
  · by_cases hlen : w.length ≤ u.length
    · rw [startsWithCI_append_left w u (' ' :: b') hlen] at hst
      rw [(containsSubCI_iff w a).mpr ⟨u, hu, hst⟩] at ha
      cases ha
    · rw [startsWithCI_ws_cross w hw u b' (by omega)] at hst
      cases hst

/-- Word characters have code at least 48. -/
theorem word_toNat_ge {c : Char} (h : isWordChar c = true) : 48 ≤ c.toNat := by
  simp only [isWordChar, decide_eq_true_eq] at h
  rcases h with ⟨h1, _⟩ | h
  · have h65 : 65 ≤ c.toNat := char_le_iff.mp h1
    omega
  rcases h with ⟨h1, _⟩ | h
  · have h97 : 97 ≤ c.toNat := char_le_iff.mp h1
    omega
  rcases h with ⟨h1, _⟩ | rfl
  · have h48 : 48 ≤ c.toNat := char_le_iff.mp h1
    omega
  · decide

/-- Whitespace characters have code at most 32. -/
theorem ws_toNat_le {c : Char} (h : isWsChar c = true) : c.toNat ≤ 32 := by
  simp only [isWsChar, decide_eq_true_eq] at h
  rcases h with rfl | rfl | rfl | rfl | rfl | rfl <;> decide

theorem word_not_ws {c : Char} (h : isWordChar c = true) : isWsChar c = false := by
  cases hw : isWsChar c with
  | false => rfl
  | true =>
      have h1 := ws_toNat_le hw
      have h2 := word_toNat_ge h
      omega

/-- Field-path characters (word characters or a dot) have code at least 46. -/
theorem field_toNat_ge {c : Char} (h : isWordChar c = true ∨ c = '.') :
    46 ≤ c.toNat := by
  rcases h with h | rfl
  · have := word_toNat_ge h
    omega
  · decide

theorem field_not_ws {c : Char} (h : isWordChar c = true ∨ c = '.') :
    isWsChar c = false := by
  cases hw : isWsChar c with
  | false => rfl
  | true =>
      have h1 := ws_toNat_le hw
      have h2 := field_toNat_ge h
      omega

theorem field_ne_comma {c : Char} (h : isWordChar c = true ∨ c = '.') : c ≠ ',' := by
  intro heq
  have h1 := field_toNat_ge h
  rw [heq] at h1
  have h2 : Char.toNat ',' = 44 := rfl
  omega

theorem field_ne_dollar {c : Char} (h : isWordChar c = true ∨ c = '.') : c ≠ '$' := by
  intro heq
  have h1 := field_toNat_ge h
  rw [heq] at h1
  have h2 : Char.toNat '$' = 36 := rfl
  omega

theorem word_ne_dollar {c : Char} (h : isWordChar c = true) : c ≠ '$' := by
  intro heq
  have h1 := word_toNat_ge h
  rw [heq] at h1
  have h2 : Char.toNat '$' = 36 := rfl
  omega

/-- Characters of the literal `"SELECT "` never case-fold to `f` or `w`. -/
theorem select_head_chars {c : Char} (h : c ∈ ("SELECT ".data : List Char)) :
    lowerChar c ≠ lowerChar 'f' ∧ lowerChar c ≠ lowerChar 'w' := by
  have h2 : c ∈ ['S', 'E', 'L', 'E', 'C', 'T', ' '] := h
  fin_cases h2 <;> exact ⟨by decide, by decide⟩

/-- Characters of the literal `" FROM "` never case-fold to `w`. -/
theorem from_head_chars {c : Char} (h : c ∈ (" FROM ".data : List Char)) :
    lowerChar c ≠ lowerChar 'w' := by
  have h2 : c ∈ [' ', 'F', 'R', 'O', 'M', ' '] := h
  fin_cases h2 <;> decide

theorem takeWhile_all {p : Char → Bool} :
    ∀ l : Str, (∀ c ∈ l, p c = true) → l.takeWhile p = l := by
  intro l
  induction l with
  | nil => intro _; rfl
  | cons c cs ih =>
      intro h
      rw [List.takeWhile_cons, if_pos (h c (List.mem_cons_self c cs)),
        ih (fun d hd => h d (List.mem_cons_of_mem c hd))]

theorem splitOnCharAux_no_sep (sep : Char) :
    ∀ (s acc : Str), (∀ c ∈ s, c ≠ sep) →
      splitOnCharAux sep acc s = [acc.reverse ++ s] := by
  intro s
  induction s with
  | nil => intro acc _; simp [splitOnCharAux]
  | cons c cs ih =>
      intro acc h
      rw [splitOnCharAux, if_neg (h c (List.mem_cons_self c cs)),
        ih (c :: acc) (fun d hd => h d (List.mem_cons_of_mem c hd))]
      simp

theorem trimStr_id (s : Str) (h : ∀ c ∈ s, isWsChar c = false) : trimStr s = s := by
  unfold trimStr
  have h1 : s.dropWhile isWsChar = s := by
    cases s with
    | nil => rfl
    | cons c cs => simp [List.dropWhile_cons, h c (List.mem_cons_self c cs)]
  rw [h1]
  have h2 : s.reverse.dropWhile isWsChar = s.reverse := by
    cases hr : s.reverse with
    | nil => rfl
    | cons c cs =>
        have hc : c ∈ s := by
          rw [← List.mem_reverse, hr]
          exact List.mem_cons_self c cs
        simp [List.dropWhile_cons, h c hc]
  rw [h2, List.reverse_reverse]

theorem stripTL_id (s : Str) (h : ∀ c ∈ s, c ≠ '$') : stripTL s = s := by
  have h2 := stripTL_append_noDollar s [] h
  have h0 : stripTL ([] : Str) = [] := rfl
  rw [h0] at h2
  simpa using h2

/-- The character preceding the suffix after scanning past a prefix. -/
def lastOr : Str → Option Char → Option Char
  | [], p => p
  | c :: cs, _ => lastOr cs (some c)

theorem lastOr_snoc : ∀ (l : Str) (c : Char) (p : Option Char),
    lastOr (l ++ [c]) p = some c := by
  intro l
  induction l with
  | nil => intro c p; rfl
  | cons d l' ih => intro c p; exact ih c (some d)

theorem wsThenCI_head_false {c : Char} (kw : Str) (cs : Str)
    (h : isWsChar c = false) : wsThenCI kw (c :: cs) = false := by
  simp [wsThenCI, h]

/-- The lazy capture `(.+?)` bounded by `\s+KW` consumes exactly the
whitespace-free block before the first terminator position. -/
theorem lazyCapAux_run (kw : Str) :
    ∀ (b taken tail : Str), b ≠ [] → (∀ c ∈ b, isWsChar c = false) →
      wsThenCI kw tail = true →
      lazyCapAux kw taken (b ++ tail) = some (taken ++ b) := by
  intro b
  induction b with
  | nil => intro _ _ hne _ _; cases hne rfl
  | cons f b' ih =>
      intro taken tail _ hns hterm
      cases b' with
      | nil =>
          show lazyCapAux kw taken (f :: tail) = some (taken ++ [f])
          simp [lazyCapAux, hterm]
      | cons g b'' =>
          have hg : isWsChar g = false := hns g (by simp)
          show lazyCapAux kw taken (f :: ((g :: b'') ++ tail)) = _
          rw [lazyCapAux]
          rw [show ((g :: b'') ++ tail) = g :: (b'' ++ tail) from rfl,
            wsThenCI_head_false kw (b'' ++ tail) hg]
          simp only [Bool.false_eq_true, if_false]
          have h3 := ih (taken ++ [f]) tail (by simp)
            (fun d hd => hns d (List.mem_cons_of_mem f hd)) hterm
          rw [show (g :: (b'' ++ tail)) = ((g :: b'') ++ tail) from rfl, h3]
          simp

/-- Scanning `\bFROM\s+(\w+)` past a prefix where every long-enough suffix
fails the keyword match. -/
theorem fromCaptureAux_append :
    ∀ (a : Str) (prev : Option Char) (t : Str),
      (∀ (c : Char) (u : Str), (c :: u) <:+ (a ++ t) → t.length < u.length + 1 →
        startsWithCI kwFrom (c :: u) = false) →
      fromCaptureAux prev (a ++ t) = fromCaptureAux (lastOr a prev) t := by
  intro a
  induction a with
  | nil => intro prev t _; rfl
  | cons d a' ih =>
      intro prev t hfail
      have hd : startsWithCI kwFrom (d :: (a' ++ t)) = false := by
        apply hfail d (a' ++ t)
        · rw [List.cons_append]
        · simp
          omega
      show fromCaptureAux prev (d :: (a' ++ t)) = _
      rw [fromCaptureAux, hd]
      simp only [Bool.and_false, Bool.false_eq_true, if_false]
      exact ih (some d) t (fun c u hs hl =>
        hfail c u (by rw [List.cons_append]; exact hs.trans (List.suffix_cons d (a' ++ t))) hl)

/-- `\bWHERE\s+(.+?)…` finds nothing when no position matches the keyword. -/
theorem whereCaptureAux_all_fail :
    ∀ (s : Str) (prev : Option Char),
      (∀ (c : Char) (u : Str), (c :: u) <:+ s → startsWithCI kwWhere (c :: u) = false) →
      whereCaptureAux prev s = none := by
  intro s
  induction s with
  | nil => intro prev _; rfl
  | cons c cs ih =>
      intro prev hfail
      have hc : startsWithCI kwWhere (c :: cs) = false := hfail c cs (List.suffix_refl _)
      rw [whereCaptureAux, hc]
      simp only [Bool.and_false, Bool.false_eq_true, if_false]
      exact ih (some c) (fun d u hs => hfail d u (hs.trans (List.suffix_cons c cs)))

/-- A whole-word match right after a space is found by the `\bKW\b` scan. -/
theorem containsWordCI_append_ws (w : Str) (c : Char) (ts : Str)
    (hm : wordMatchAt w (c :: ts) = true) :
    ∀ (a : Str) (prev : Option Char),
      containsWordCIAux w prev (a ++ ' ' :: c :: ts) = true := by
  intro a
  induction a with
  | nil =>
      intro prev
      show containsWordCIAux w prev (' ' :: c :: ts) = true
      rw [containsWordCIAux]
      have h2 : containsWordCIAux w (some ' ') (c :: ts) = true := by
        rw [containsWordCIAux]
        have hb : boundaryOkB (some ' ') = true := by decide
        simp [hb, hm]
      simp [h2]
  | cons d a' ih =>
      intro prev
      rw [List.cons_append, containsWordCIAux]
      simp [ih (some d)]

theorem sw_select_lit (X : Str) : startsWithCI kwSelect ("SELECT ".data ++ X) = true := rfl

theorem sw_from_lit (X : Str) : startsWithCI kwFrom ("FROM ".data ++ X) = true := rfl

theorem wm_select_lit (X : Str) : wordMatchAt kwSelect ("SELECT ".data ++ X) = true := rfl

theorem wm_from_lit (X : Str) : wordMatchAt kwFrom ("FROM ".data ++ X) = true := rfl

theorem cwci_select_lit (X : Str) : containsWordCI kwSelect ("SELECT ".data ++ X) = true := rfl

theorem wsThenCI_from_lit (X : Str) :
    wsThenCI kwFrom (' ' :: ("FROM ".data ++ X)) = true := rfl

/-- Within the field block of a query no keyword match can start: either the
whole keyword fits inside the block (excluded by the no-substring hypothesis)
or it would have to run across the following space. -/
theorem sw_false_in_block {kw : Str} (hkw : ∀ c ∈ kw, lowerChar c ≠ ' ')
    {b w t' : Str} (hb : containsSubCI kw b = false) (hw : w <:+ b) :
    startsWithCI kw (w ++ ' ' :: t') = false := by
  by_cases hlen : kw.length ≤ w.length
  · rw [startsWithCI_append_left kw w _ hlen]
    exact startsWithCI_suffix_false hw hb
  · exact startsWithCI_ws_cross kw hkw w t' (by omega)

/-- The capture attempt right at the `FROM` keyword of a well-formed query
succeeds and captures the whole resource word. -/
theorem fromCaptureAux_at_from (R : Str) (hRne : R ≠ [])
    (hRw : ∀ c ∈ R, isWordChar c = true) :
    fromCaptureAux (some ' ') ("FROM ".data ++ R) = some R := by
  cases R with
  | nil => cases hRne rfl
  | cons r R' =>
      have hr : isWordChar r = true := hRw r (List.mem_cons_self r R')
      show fromCaptureAux (some ' ') ('F' :: ("ROM ".data ++ (r :: R'))) = _
      rw [fromCaptureAux]
      have hsw : startsWithCI kwFrom ('F' :: ("ROM ".data ++ (r :: R'))) = true :=
        sw_from_lit (r :: R')
      have hb : boundaryOkB (some ' ') = true := by decide
      have hdrop : ('F' :: ("ROM ".data ++ (r :: R'))).drop 4 = ' ' :: r :: R' := rfl
      have hwsw : wsWordAfter (' ' :: r :: R') = some (r :: R') := by
        rw [wsWordAfter]
        have h1 : (' ' :: r :: R').dropWhile isWsChar = r :: R' := by
          rw [List.dropWhile_cons]
          simp only [show isWsChar ' ' = true from rfl, if_true]
          rw [List.dropWhile_cons]
          simp only [word_not_ws hr, Bool.false_eq_true, if_false]
        rw [show isWsChar ' ' = true from rfl]
        simp only [if_true, h1, hr, if_pos]
        rw [takeWhile_all (r :: R') hRw]
      rw [hsw, hb, hdrop, hwsw]
      simp

/-- A query of the shape `SELECT F FROM R` contains no case-insensitive
`where` substring when neither the field path nor the resource does. -/
theorem no_where_in_sfr (F R : Str)
    (hF : containsSubCI kwWhere F = false) (hR : containsSubCI kwWhere R = false) :
    containsSubCI kwWhere ("SELECT ".data ++ (F ++ (" FROM ".data ++ R))) = false := by
  have hkw : ∀ c ∈ kwWhere, lowerChar c ≠ ' ' := by decide
  cases hcs : containsSubCI kwWhere ("SELECT ".data ++ (F ++ (" FROM ".data ++ R))) with
  | false => rfl
  | true =>
      exfalso
      obtain ⟨t, ht, hst⟩ := (containsSubCI_iff kwWhere _).mp hcs
      rcases suffix_append_cases _ _ _ ht with h1 | ⟨v, hv, hvne, heq⟩
      · rcases suffix_append_cases _ _ _ h1 with h2 | ⟨w, hw, hwne, heq⟩
        · rcases suffix_append_cases _ _ _ h2 with h3 | ⟨v, hv, hvne, heq⟩
          · rw [startsWithCI_suffix_false h3 hR] at hst
            simp at hst
          · cases v with
            | nil => cases hvne rfl
            | cons c v' =>
                have hc : c ∈ (" FROM ".data : List Char) := head_mem_of_suffix hv
                have h4 := from_head_chars hc
                have hf : startsWithCI kwWhere (c :: (v' ++ R)) = false :=
                  startsWithCI_head_false _ _ (fun hh => h4 hh.symm)
                rw [heq, show ((c :: v') ++ R) = c :: (v' ++ R) from rfl, hf] at hst
                simp at hst
        · rw [heq, show (" FROM ".data ++ R) = ' ' :: ("FROM ".data ++ R) from rfl,
            sw_false_in_block hkw hF hw] at hst
          simp at hst
      · cases v with
        | nil => cases hvne rfl
        | cons c v' =>
            have hc : c ∈ ("SELECT ".data : List Char) := head_mem_of_suffix hv
            have h2 := (select_head_chars hc).2
            have hf : startsWithCI kwWhere
                (c :: (v' ++ (F ++ (" FROM ".data ++ R)))) = false :=
              startsWithCI_head_false _ _ (fun hh => h2 hh.symm)
            rw [heq, show ((c :: v') ++ (F ++ (" FROM ".data ++ R)))
                = c :: (v' ++ (F ++ (" FROM ".data ++ R))) from rfl, hf] at hst
            simp at hst

/-- `/\bFROM\s+(\w+)/i` on `SELECT F FROM R` captures exactly the resource
word when the field path contains no `from` substring. -/
theorem fromCapture_sfr (F R : Str)
    (hFfrom : containsSubCI kwFrom F = false)
    (hRne : R ≠ []) (hRw : ∀ c ∈ R, isWordChar c = true) :
    fromCapture ("SELECT ".data ++ (F ++ (" FROM ".data ++ R))) = some R := by
  have hkw : ∀ c ∈ kwFrom, lowerChar c ≠ ' ' := by decide
  have hq : "SELECT ".data ++ (F ++ (" FROM ".data ++ R))
      = (("SELECT ".data ++ F) ++ [' ']) ++ ("FROM ".data ++ R) := by
    rw [show (" FROM ".data ++ R) = [' '] ++ ("FROM ".data ++ R) from rfl]
    simp [List.append_assoc]
  have hfail : ∀ (c : Char) (u : Str),
      (c :: u) <:+ ((("SELECT ".data ++ F) ++ [' ']) ++ ("FROM ".data ++ R)) →
      ("FROM ".data ++ R).length < u.length + 1 →
      startsWithCI kwFrom (c :: u) = false := by
    intro c u hsuf hlen
    rcases suffix_append_cases _ _ _ hsuf with h1 | ⟨v, hv, hvne, heq⟩
    · have h2 := h1.length_le
      simp at h2 hlen
      omega
    · rcases suffix_append_cases _ _ _ hv with h2 | ⟨w, hw, hwne, heq2⟩
      · have hv' : v = [' '] := by
          cases (List.suffix_cons_iff.mp h2) with
          | inl h => exact h
          | inr h => cases hvne (List.eq_nil_of_suffix_nil h)
        rw [heq, hv']
        exact startsWithCI_head_false _ _ (by decide)
      · subst heq2
        rcases suffix_append_cases _ _ _ hw with h3 | ⟨v', hv', hv'ne, heq3⟩
        · rw [heq, show ((w ++ [' ']) ++ ("FROM ".data ++ R))
              = w ++ ' ' :: ("FROM ".data ++ R) from by simp]
          exact sw_false_in_block hkw hFfrom h3
        · subst heq3
          cases v' with
          | nil => cases hv'ne rfl
          | cons d v'' =>
              have hd : d ∈ ("SELECT ".data : List Char) := head_mem_of_suffix hv'
              have h4 := (select_head_chars hd).1
              rw [heq, show ((((d :: v'') ++ F) ++ [' ']) ++ ("FROM ".data ++ R))
                  = d :: (((v'' ++ F) ++ [' ']) ++ ("FROM ".data ++ R)) from by simp]
              exact startsWithCI_head_false _ _ (fun hh => h4 hh.symm)
  rw [hq]
  unfold fromCapture
  rw [fromCaptureAux_append (("SELECT ".data ++ F) ++ [' ']) none ("FROM ".data ++ R) hfail,
    lastOr_snoc]
  exact fromCaptureAux_at_from R hRne hRw

/-- `/\bSELECT\s+(.+?)\s+FROM/is` on `SELECT F FROM R` captures exactly the
field path. -/
theorem selectCapture_sfr (F R : Str) (hFne : F ≠ [])
    (hFc : ∀ c ∈ F, isWordChar c = true ∨ c = '.') :
    selectCapture ("SELECT ".data ++ (F ++ (" FROM ".data ++ R))) = some F := by
  unfold selectCapture
  show selectCaptureAux none
    ('S' :: ("ELECT ".data ++ (F ++ (" FROM ".data ++ R)))) = some F
  rw [selectCaptureAux]
  have hsw : startsWithCI kwSelect
      ('S' :: ("ELECT ".data ++ (F ++ (" FROM ".data ++ R)))) = true :=
    sw_select_lit (F ++ (" FROM ".data ++ R))
  have hb : boundaryOkB none = true := rfl
  have hdrop : ('S' :: ("ELECT ".data ++ (F ++ (" FROM ".data ++ R)))).drop 6
      = ' ' :: (F ++ (" FROM ".data ++ R)) := rfl
  rw [hsw, hb, hdrop]
  have htry : selectTryAt (' ' :: (F ++ (" FROM ".data ++ R))) = some F := by
    unfold selectTryAt
    have hws : (' ' :: (F ++ (" FROM ".data ++ R))).takeWhile isWsChar = [' '] := by
      cases F with
      | nil => cases hFne rfl
      | cons f F' =>
          have hf : isWsChar f = false := field_not_ws (hFc f (List.mem_cons_self f F'))
          rw [List.takeWhile_cons]
          simp only [show isWsChar ' ' = true from rfl, if_true, List.cons_append,
            List.takeWhile_cons, hf, Bool.false_eq_true, if_false]
    rw [hws]
    show selectTryWs 1 (' ' :: (F ++ (" FROM ".data ++ R))) = some F
    rw [selectTryWs]
    have hcap : lazyCapAux kwFrom [] (F ++ (' ' :: ("FROM ".data ++ R))) = some F := by
      have h := lazyCapAux_run kwFrom F [] (' ' :: ("FROM ".data ++ R)) hFne
        (fun c hc => field_not_ws (hFc c hc)) (wsThenCI_from_lit R)
      simpa using h
    rw [show ((' ' :: (F ++ (" FROM ".data ++ R))).drop 1)
        = F ++ (' ' :: ("FROM ".data ++ R)) from rfl, hcap]
  rw [htry]
  simp

/-- The whole-word `FROM` test succeeds on `SELECT F FROM R`. -/
theorem cwci_from_sfr (F R : Str) :
    containsWordCI kwFrom ("SELECT ".data ++ (F ++ (" FROM ".data ++ R))) = true := by
  have hm : wordMatchAt kwFrom ('F' :: ("ROM ".data ++ R)) = true := wm_from_lit R
  have h2 := containsWordCI_append_ws kwFrom 'F' ("ROM ".data ++ R) hm
    ("SELECT ".data ++ F) none
  rw [List.append_assoc] at h2
  exact h2

/-! ## C1 — SELECT-field queries validate -/

/-- Position `i` of `F` starts a suffix that is exactly the keyword `kw`
(case-insensitively) and sits at a word boundary (start of `F`, or preceded
by a non-word character such as a dot).  Inside a `SELECT F FROM R` query
such a tail is the only place where `\bKW\s+…` can fire within the field
path: interior occurrences of the keyword are followed by word characters or
dots (so `\s+` fails) and underscore-flanked ones fail the `\b` test. -/
def keywordTailAt (kw F : Str) (i : Nat) : Prop :=
  (F.drop i).length = kw.length ∧ startsWithCI kw (F.drop i) = true ∧
    (i = 0 ∨ isWordChar (F.getD (i - 1) ' ') = false)

theorem drop_append_right :
    ∀ (A B : Str) (n : Nat), (A ++ B).drop (A.length + n) = B.drop n := by
  intro A
  induction A with
  | nil => intro B n; simp
  | cons c A' ih =>
      intro B n
      rw [show ((c :: A').length + n) = (A'.length + n) + 1 from by simp; omega,
        show ((c :: A') ++ B) = c :: (A' ++ B) from rfl,
        List.drop_succ_cons, ih]

theorem getD_append_right :
    ∀ (A B : Str) (n : Nat) (d : Char), (A ++ B).getD (A.length + n) d = B.getD n d := by
  intro A
  induction A with
  | nil => intro B n d; simp
  | cons c A' ih =>
      intro B n d
      rw [show ((c :: A').length + n) = (A'.length + n) + 1 from by simp; omega,
        show ((c :: A') ++ B) = c :: (A' ++ B) from rfl,
        List.getD_cons_succ, ih]

instance (kw F : Str) (i : Nat) : Decidable (keywordTailAt kw F i) := by
  unfold keywordTailAt
  infer_instance

theorem sw_length : ∀ (w s : Str), startsWithCI w s = true → w.length ≤ s.length := by
  intro w
  induction w with
  | nil => intro s _; simp
  | cons a as ih =>
      intro s h
      cases s with
      | nil => simp [startsWithCI] at h
      | cons b bs =>
          rw [startsWithCI, Bool.and_eq_true] at h
          have h2 := ih bs h.2
          simp only [List.length_cons]
          omega

theorem wsWordAfter_not_ws {c : Char} (rest : Str) (h : isWsChar c = false) :
    wsWordAfter (c :: rest) = none := by
  rw [wsWordAfter]
  simp [h]

theorem whereTryAt_not_ws {c : Char} (rest : Str) (h : isWsChar c = false) :
    whereTryAt (c :: rest) = none := by
  unfold whereTryAt
  rw [List.takeWhile_cons]
  simp only [h, Bool.false_eq_true, if_false, List.length_nil]
  rfl

theorem whereTryAt_nil : whereTryAt [] = none := rfl

/-- Scanning `\bFROM\s+(\w+)` past a prefix where every long-enough attempt
fails — at the word boundary, at the keyword match, or at the `\s+(\w+)`
continuation. -/
theorem fromCaptureAux_skip_all :
    ∀ (a : Str) (prev : Option Char) (t : Str),
      (∀ (x : Str) (c : Char) (u : Str), a ++ t = x ++ (c :: u) →
          t.length < u.length + 1 →
        boundaryOkB (lastOr x prev) = false
        ∨ startsWithCI kwFrom (c :: u) = false
        ∨ wsWordAfter ((c :: u).drop 4) = none) →
      fromCaptureAux prev (a ++ t) = fromCaptureAux (lastOr a prev) t := by
  intro a
  induction a with
  | nil => intro prev t _; rfl
  | cons d a' ih =>
      intro prev t H
      have hatt := H [] d (a' ++ t) (by rw [List.nil_append, List.cons_append])
        (by simp; omega)
      show fromCaptureAux prev (d :: (a' ++ t)) = _
      rw [fromCaptureAux]
      have hnone : (if boundaryOkB prev && startsWithCI kwFrom (d :: (a' ++ t))
          then wsWordAfter ((d :: (a' ++ t)).drop 4) else none) = none := by
        rcases hatt with h | h | h
        · rw [show lastOr ([] : Str) prev = prev from rfl] at h
          rw [h]
          simp
        · rw [h]
          simp
        · by_cases hc : (boundaryOkB prev && startsWithCI kwFrom (d :: (a' ++ t))) = true
          · rw [if_pos hc]
            exact h
          · rw [if_neg hc]
      rw [hnone]
      exact ih (some d) t (fun x c u heq hlen =>
        H (d :: x) c u (by rw [List.cons_append, List.cons_append, heq]) hlen)

/-- `\bWHERE\s+(.+?)…` finds nothing when every attempt fails — at the word
boundary, at the keyword match, or at the `\s+` continuation. -/
theorem whereCaptureAux_none_all :
    ∀ (s : Str) (prev : Option Char),
      (∀ (x : Str) (c : Char) (u : Str), s = x ++ (c :: u) →
        boundaryOkB (lastOr x prev) = false
        ∨ startsWithCI kwWhere (c :: u) = false
        ∨ whereTryAt ((c :: u).drop 5) = none) →
      whereCaptureAux prev s = none := by
  intro s
  induction s with
  | nil => intro prev _; rfl
  | cons d s' ih =>
      intro prev H
      have hatt := H [] d s' (by rw [List.nil_append])
      rw [whereCaptureAux]
      have hnone : (if boundaryOkB prev && startsWithCI kwWhere (d :: s')
          then whereTryAt ((d :: s').drop 5) else none) = none := by
        rcases hatt with h | h | h
        · rw [show lastOr ([] : Str) prev = prev from rfl] at h
          rw [h]
          simp
        · rw [h]
          simp
        · by_cases hc : (boundaryOkB prev && startsWithCI kwWhere (d :: s')) = true
          · rw [if_pos hc]
            exact h
          · rw [if_neg hc]
      rw [hnone]
      exact ih (some d) (fun x c u heq => H (d :: x) c u (by rw [heq, List.cons_append]))

/-- A whole-keyword suffix of the field path is either preceded by a word
character (so the `\b` test fails there) or it is an excluded keyword tail. -/
theorem keyword_tail_boundary {F u' w : Str} (kw : Str) (hk0 : kw ≠ [])
    (hT : ∀ i < F.length, ¬ keywordTailAt kw F i)
    (hF : F = u' ++ w) (hwlen : w.length = kw.length)
    (hsw : startsWithCI kw w = true) :
    ∃ e, lastOr ("SELECT ".data ++ u') none = some e ∧ isWordChar e = true := by
  have hk0' : 0 < kw.length := by
    cases kw with
    | nil => cases hk0 rfl
    | cons _ _ => simp
  rcases List.eq_nil_or_concat u' with rfl | ⟨u'', e, hu''⟩
  · exfalso
    apply hT 0 (by rw [hF]; simp; omega)
    refine ⟨?_, ?_, Or.inl rfl⟩
    · rw [List.drop_zero, hF, List.nil_append]
      exact hwlen
    · rw [List.drop_zero, hF, List.nil_append]
      exact hsw
  · rw [List.concat_eq_append] at hu''
    subst hu''
    have hdrop : F.drop ((u'' ++ [e]).length) = w := by
      rw [hF]
      have h0 := drop_append_right (u'' ++ [e]) w 0
      rw [Nat.add_zero, List.drop_zero] at h0
      exact h0
    by_cases hw : isWordChar e = true
    · refine ⟨e, ?_, hw⟩
      rw [show "SELECT ".data ++ (u'' ++ [e]) = ("SELECT ".data ++ u'') ++ [e] from by
        rw [List.append_assoc]]
      exact lastOr_snoc _ e none
    · exfalso
      apply hT ((u'' ++ [e]).length) (by rw [hF]; simp; omega)
      refine ⟨?_, ?_, Or.inr ?_⟩
      · rw [hdrop]
        exact hwlen
      · rw [hdrop]
        exact hsw
      · have hi : (u'' ++ [e]).length - 1 = u''.length := by simp
        rw [hi, hF, show (u'' ++ [e]) ++ w = u'' ++ (e :: w) from by simp,
          show (u'' ++ (e :: w)).getD u''.length ' ' = e from by
            have h0 := getD_append_right u'' (e :: w) 0 ' '
            simpa using h0]
        simpa using hw

/-- `/\bFROM\s+(\w+)/i` on `SELECT F FROM R` captures exactly the resource
word for every identifier-and-dot field path that has no keyword tail
`from` at its start or after a dot: interior `from` occurrences fail at
`\s+` and underscore-flanked ones fail at `\b`. -/
theorem fromCapture_tail (F R : Str)
    (hFc : ∀ c ∈ F, isWordChar c = true ∨ c = '.')
    (hT : ∀ i < F.length, ¬ keywordTailAt kwFrom F i)
    (hRne : R ≠ []) (hRw : ∀ c ∈ R, isWordChar c = true) :
    fromCapture ("SELECT ".data ++ (F ++ (" FROM ".data ++ R))) = some R := by
  have hkw : ∀ c ∈ kwFrom, lowerChar c ≠ ' ' := by decide
  have hq : "SELECT ".data ++ (F ++ (" FROM ".data ++ R))
      = (("SELECT ".data ++ F) ++ [' ']) ++ ("FROM ".data ++ R) := by
    rw [show (" FROM ".data ++ R) = [' '] ++ ("FROM ".data ++ R) from rfl]
    simp [List.append_assoc]
  have hH : ∀ (x : Str) (c : Char) (u : Str),
      (("SELECT ".data ++ F) ++ [' ']) ++ ("FROM ".data ++ R) = x ++ (c :: u) →
      ("FROM ".data ++ R).length < u.length + 1 →
      boundaryOkB (lastOr x none) = false
      ∨ startsWithCI kwFrom (c :: u) = false
      ∨ wsWordAfter ((c :: u).drop 4) = none := by
    intro x c u heq hlen
    have hsuf : (c :: u) <:+ ((("SELECT ".data ++ F) ++ [' ']) ++ ("FROM ".data ++ R)) :=
      ⟨x, heq.symm⟩
    rcases suffix_append_cases _ _ _ hsuf with h1 | ⟨v, hv, hvne, heq2⟩
    · have h2 := h1.length_le
      simp at h2 hlen
      omega
    · rcases suffix_append_cases _ _ _ hv with h2 | ⟨w, hw, hwne, heq3⟩
      · have hv' : v = [' '] := by
          cases (List.suffix_cons_iff.mp h2) with
          | inl h => exact h
          | inr h => cases hvne (List.eq_nil_of_suffix_nil h)
        subst hv'
        refine Or.inr (Or.inl ?_)
        rw [heq2]
        exact startsWithCI_head_false _ _ (by decide)
      · subst heq3
        rcases suffix_append_cases _ _ _ hw with h3 | ⟨v', hv', hv'ne, heq4⟩
        · have heqc : c :: u = w ++ ' ' :: ("FROM ".data ++ R) := by
            rw [heq2]
            simp
          cases hx : startsWithCI kwFrom (c :: u) with
          | false => exact Or.inr (Or.inl rfl)
          | true =>
              by_cases hlt : w.length < 4
              · exfalso
                rw [heqc, startsWithCI_ws_cross kwFrom hkw w _ (by
                  rw [show (kwFrom : Str).length = 4 from rfl]; omega)] at hx
                cases hx
              · push_neg at hlt
                rw [heqc, startsWithCI_append_left kwFrom w _ (by
                  rw [show (kwFrom : Str).length = 4 from rfl]; omega)] at hx
                by_cases h4 : w.length = 4
                · obtain ⟨u', hu'⟩ := h3
                  obtain ⟨e, hle, hwe⟩ := keyword_tail_boundary kwFrom (by decide) hT
                    hu'.symm (by rw [h4]; rfl) hx
                  refine Or.inl ?_
                  have hx_eq : x = "SELECT ".data ++ u' := by
                    apply List.append_cancel_right
                    calc x ++ (w ++ ' ' :: ("FROM ".data ++ R))
                        = x ++ (c :: u) := by rw [heqc]
                      _ = (("SELECT ".data ++ F) ++ [' ']) ++ ("FROM ".data ++ R) :=
                          heq.symm
                      _ = ("SELECT ".data ++ u') ++ (w ++ ' ' :: ("FROM ".data ++ R)) := by
                          rw [← hu']
                          simp
                  rw [hx_eq, hle]
                  show boundaryOkB (some e) = false
                  simp [boundaryOkB, hwe]
                · refine Or.inr (Or.inr ?_)
                  rw [heqc, show (w ++ ' ' :: ("FROM ".data ++ R)).drop 4
                      = w.drop 4 ++ ' ' :: ("FROM ".data ++ R) from
                        List.drop_append_of_le_length (by omega)]
                  cases hd : w.drop 4 with
                  | nil =>
                      exfalso
                      have h5 := congrArg List.length hd
                      simp at h5
                      omega
                  | cons c' rest' =>
                      have hc' : c' ∈ F := by
                        have h6 : c' ∈ w.drop 4 := by
                          rw [hd]
                          exact List.mem_cons_self _ _
                        exact h3.subset ((List.drop_suffix 4 w).subset h6)
                      exact wsWordAfter_not_ws _ (field_not_ws (hFc c' hc'))
        · subst heq4
          cases v' with
          | nil => cases hv'ne rfl
          | cons d v'' =>
              have hd : d ∈ ("SELECT ".data : List Char) := head_mem_of_suffix hv'
              have h4 := (select_head_chars hd).1
              refine Or.inr (Or.inl ?_)
              rw [heq2, show (((d :: v'') ++ F) ++ [' ']) ++ ("FROM ".data ++ R)
                  = d :: (((v'' ++ F) ++ [' ']) ++ ("FROM ".data ++ R)) from by simp]
              exact startsWithCI_head_false _ _ (fun hh => h4 hh.symm)
  rw [hq]
  unfold fromCapture
  rw [fromCaptureAux_skip_all (("SELECT ".data ++ F) ++ [' ']) none
    ("FROM ".data ++ R) hH, lastOr_snoc]
  exact fromCaptureAux_at_from R hRne hRw

/-- `/\bWHERE\s+(.+?)…/is` finds nothing on `SELECT F FROM R` when the field
path has no keyword tail `where` at its start or after a dot: interior
occurrences fail at `\s+`, underscore-flanked ones fail at `\b`, and a
`where`-shaped suffix of the resource word runs into the end of the text. -/
theorem whereCapture_tail (F R : Str)
    (hFc : ∀ c ∈ F, isWordChar c = true ∨ c = '.')
    (hT : ∀ i < F.length, ¬ keywordTailAt kwWhere F i)
    (hRw : ∀ c ∈ R, isWordChar c = true) :
    whereCapture ("SELECT ".data ++ (F ++ (" FROM ".data ++ R))) = none := by
  have hkw : ∀ c ∈ kwWhere, lowerChar c ≠ ' ' := by decide
  unfold whereCapture
  apply whereCaptureAux_none_all
  intro x c u heq
  have hsuf : (c :: u) <:+ ("SELECT ".data ++ (F ++ (" FROM ".data ++ R))) := ⟨x, heq.symm⟩
  rcases suffix_append_cases _ _ _ hsuf with h1 | ⟨v, hv, hvne, heq2⟩
  · rcases suffix_append_cases _ _ _ h1 with h2 | ⟨w, hw, hwne, heq3⟩
    · rcases suffix_append_cases _ _ _ h2 with h3 | ⟨v, hv, hvne, heq4⟩
      · cases hx : startsWithCI kwWhere (c :: u) with
        | false => exact Or.inr (Or.inl rfl)
        | true =>
            refine Or.inr (Or.inr ?_)
            cases hd : (c :: u).drop 5 with
            | nil => exact whereTryAt_nil
            | cons c' rest' =>
                have hc' : c' ∈ R := by
                  have h5 : c' ∈ (c :: u).drop 5 := by
                    rw [hd]
                    exact List.mem_cons_self _ _
                  exact h3.subset ((List.drop_suffix 5 (c :: u)).subset h5)
                exact whereTryAt_not_ws _ (word_not_ws (hRw c' hc'))
      · cases v with
        | nil => cases hvne rfl
        | cons d v' =>
            have hd : d ∈ (" FROM ".data : List Char) := head_mem_of_suffix hv
            have h4 := from_head_chars hd
            refine Or.inr (Or.inl ?_)
            rw [heq4, show ((d :: v') ++ R) = d :: (v' ++ R) from rfl]
            exact startsWithCI_head_false _ _ (fun hh => h4 hh.symm)
    · have heqc : c :: u = w ++ ' ' :: ("FROM ".data ++ R) := heq3
      cases hx : startsWithCI kwWhere (c :: u) with
      | false => exact Or.inr (Or.inl rfl)
      | true =>
          by_cases hlt : w.length < 5
          · exfalso
            rw [heqc, startsWithCI_ws_cross kwWhere hkw w _ (by
              rw [show (kwWhere : Str).length = 5 from rfl]; omega)] at hx
            cases hx
          · push_neg at hlt
            rw [heqc, startsWithCI_append_left kwWhere w _ (by
              rw [show (kwWhere : Str).length = 5 from rfl]; omega)] at hx
            by_cases h5 : w.length = 5
            · obtain ⟨u', hu'⟩ := hw
              obtain ⟨e, hle, hwe⟩ := keyword_tail_boundary kwWhere (by decide) hT
                hu'.symm (by rw [h5]; rfl) hx
              refine Or.inl ?_
              have hx_eq : x = "SELECT ".data ++ u' := by
                apply List.append_cancel_right
                calc x ++ (w ++ ' ' :: ("FROM ".data ++ R))
                    = x ++ (c :: u) := by rw [heqc]
                  _ = "SELECT ".data ++ (F ++ (" FROM ".data ++ R)) := heq.symm
                  _ = ("SELECT ".data ++ u') ++ (w ++ ' ' :: ("FROM ".data ++ R)) := by
                      rw [← hu']
                      simp
              rw [hx_eq, hle]
              show boundaryOkB (some e) = false
              simp [boundaryOkB, hwe]
            · refine Or.inr (Or.inr ?_)
              rw [heqc, show (w ++ ' ' :: ("FROM ".data ++ R)).drop 5
                  = w.drop 5 ++ ' ' :: ("FROM ".data ++ R) from
                    List.drop_append_of_le_length (by omega)]
              cases hd : w.drop 5 with
              | nil =>
                  exfalso
                  have h6 := congrArg List.length hd
                  simp at h6
                  omega
              | cons c' rest' =>
                  have hc' : c' ∈ F := by
                    have h6 : c' ∈ w.drop 5 := by
                      rw [hd]
                      exact List.mem_cons_self _ _
                    exact hw.subset ((List.drop_suffix 5 w).subset h6)
                  exact whereTryAt_not_ws _ (field_not_ws (hFc c' hc'))
  · cases v with
    | nil => cases hvne rfl
    | cons d v' =>
        have hd : d ∈ ("SELECT ".data : List Char) := head_mem_of_suffix hv
        have h4 := (select_head_chars hd).2
        refine Or.inr (Or.inl ?_)
        rw [heq2, show ((d :: v') ++ (F ++ (" FROM ".data ++ R)))
            = d :: (v' ++ (F ++ (" FROM ".data ++ R))) from rfl]
        exact startsWithCI_head_false _ _ (fun hh => h4 hh.symm)

/-- Modelled from the spec: a catalog whose `campaign` resource lists a
field whose short name is the bare identifier `from` (qualified name
`campaign.from`) — a dotted snake_case name the schema shape admits. -/
def fromFieldCatalog : Catalog :=
  [ ("campaign".data,
      ⟨[("campaign".data, [("id".data, "doc".data), ("from".data, "doc".data)])],
       [("clicks".data, "doc".data)], [("date".data, "doc".data)]⟩) ]

/-- Modelled from the spec: a catalog whose `campaign` resource carries the
`metrics.all_conversions_from_interactions_rate` metric — a real v19–v21
field family with an interior, underscore-flanked `from`. -/
def convCatalog : Catalog :=
  [ ("campaign".data,
      ⟨[("campaign".data, [("id".data, "doc".data)])],
       [("all_conversions_from_interactions_rate".data, "doc".data),
        ("clicks".data, "doc".data)], [("date".data, "doc".data)]⟩) ]

/-- The whole-word hit test of `findKeywordIndex` at one position. -/
def fkiFound (text kw : Str) (i : Nat) : Bool :=
  kw.isPrefixOf (text.drop i)
    && !(isWordChar (if i = 0 then ' ' else text.getD (i - 1) ' '))
    && !(isWordChar (text.getD (i + kw.length) ' '))

theorem fkiGoF_succ (fuel : Nat) (text kw : Str) (i : Nat) :
    fkiGoF (fuel + 1) text kw i =
      if text.length < i + kw.length then none
      else if fkiFound text kw i then some i
      else fkiGoF fuel text kw (i + 1) := rfl

/-- Skipping a block of in-range positions that all fail the hit test. -/
theorem fkiGo_skip (text kw : Str) :
    ∀ (n fuel i : Nat),
      (∀ m, i ≤ m → m < i + n →
        ¬(text.length < m + kw.length) ∧ fkiFound text kw m = false) →
      fkiGoF (n + fuel) text kw i = fkiGoF fuel text kw (i + n) := by
  intro n
  induction n with
  | zero => intro fuel i _; simp
  | succ n' ih =>
      intro fuel i h
      have h0 := h i (le_refl i) (by omega)
      rw [show n' + 1 + fuel = (n' + fuel) + 1 from by omega, fkiGoF_succ,
        if_neg h0.1, h0.2]
      simp only [Bool.false_eq_true, if_false]
      rw [ih fuel (i + 1) (fun m hm1 hm2 => h m (by omega) (by omega)),
        show i + 1 + n' = i + (n' + 1) from by omega]

/-- `text.toUpperCase()` then an exact upper-case keyword prefix test is the
case-insensitive prefix test on the original text. -/
theorem isPrefixOf_upperStr_eq :
    ∀ {W w : Str},
      List.Forall₂ (fun U l => 'A' ≤ U ∧ U ≤ 'Z' ∧ l.toNat = U.toNat + 32) W w →
      ∀ z, (W.isPrefixOf (upperStr z)) = startsWithCI w z := by
  intro W w hrel
  induction hrel with
  | nil => intro z; cases z <;> rfl
  | @cons U l W' w' hUl hrel2 ih =>
      intro z
      obtain ⟨h1, h2, h3⟩ := hUl
      have hU1 : 65 ≤ U.toNat := char_le_iff.mp h1
      have hU2 : U.toNat ≤ 90 := char_le_iff.mp h2
      have hll : lowerChar l = l := lowerChar_of_lower (by omega) (by omega)
      cases z with
      | nil => rfl
      | cons c z' =>
          show (U :: W').isPrefixOf (upperChar c :: upperStr z')
            = startsWithCI (l :: w') (c :: z')
          have hhead : (U == upperChar c) = decide (lowerChar l = lowerChar c) := by
            apply Bool.eq_iff_iff.mpr
            constructor
            · intro hb
              have he : U = upperChar c := eq_of_beq hb
              have hlc := (upperChar_eq_iff_lowerChar c U l h1 h2 h3).mp he.symm
              rw [hll]
              exact decide_eq_true hlc.symm
            · intro hd
              have hd2 : lowerChar l = lowerChar c := of_decide_eq_true hd
              rw [hll] at hd2
              have he := (upperChar_eq_iff_lowerChar c U l h1 h2 h3).mpr hd2.symm
              exact beq_iff_eq.mpr he.symm
          simp only [List.isPrefixOf, startsWithCI]
          rw [hhead, ih z']

theorem from_bridge (z : Str) :
    kwFROMu.isPrefixOf (upperStr z) = startsWithCI kwFrom z :=
  isPrefixOf_upperStr_eq
    (List.Forall₂.cons (by decide)
      (List.Forall₂.cons (by decide)
        (List.Forall₂.cons (by decide)
          (List.Forall₂.cons (by decide) List.Forall₂.nil)))) z

theorem ws4_imp {c : Char} (h : isWs4 c = true) : isWsChar c = true := by
  simp only [isWs4, decide_eq_true_eq] at h
  simp only [isWsChar, decide_eq_true_eq]
  rcases h with rfl | rfl | rfl | rfl <;> simp

theorem not_ws4_of_not_ws {c : Char} (h : isWsChar c = false) : isWs4 c = false := by
  cases h4 : isWs4 c with
  | false => rfl
  | true => rw [ws4_imp h4] at h; cases h

theorem take_append_one :
    ∀ (l : Str) (c : Char) (Y : Str), (l ++ c :: Y).take (l.length + 1) = l ++ [c] := by
  intro l
  induction l with
  | nil => intro c Y; rfl
  | cons d l' ih =>
      intro c Y
      rw [show ((d :: l').length + 1) = (l'.length + 1) + 1 from by simp,
        show ((d :: l') ++ c :: Y) = d :: (l' ++ c :: Y) from rfl,
        List.take_succ_cons, ih]
      rfl

/-- Trimming a field block with a trailing space recovers the block. -/
theorem trim_append_space (b : Str) (hbne : b ≠ [])
    (hhead : ∀ c, b.head? = some c → isWsChar c = false)
    (hlast : ∀ c, b.getLast? = some c → isWsChar c = false) :
    trimStr (b ++ [' ']) = b := by
  cases b with
  | nil => cases hbne rfl
  | cons f b1 =>
      have hf : isWsChar f = false := hhead f rfl
      unfold trimStr
      have h1 : ((f :: b1) ++ [' ']).dropWhile isWsChar = (f :: b1) ++ [' '] := by
        rw [List.cons_append, List.dropWhile_cons]
        simp [hf]
      rw [h1]
      have h2 : ((f :: b1) ++ [' ']).reverse = ' ' :: (f :: b1).reverse := by
        simp
      rw [h2, List.dropWhile_cons]
      simp only [show isWsChar ' ' = true from rfl, if_true]
      have h3 : (f :: b1).reverse.dropWhile isWsChar = (f :: b1).reverse := by
        cases hrev : (f :: b1).reverse with
        | nil => rfl
        | cons e0 rest =>
            have he0 : (f :: b1).getLast? = some e0 := by
              rw [← List.head?_reverse, hrev]
              rfl
            rw [List.dropWhile_cons]
            simp [hlast e0 he0]
      rw [h3, List.reverse_reverse]

theorem ipo_select_lit (Y : Str) : kwSELECTu.isPrefixOf ("SELECT ".data ++ Y) = true := rfl

theorem ipo_from_lit (Y : Str) : kwFROMu.isPrefixOf ("FROM ".data ++ Y) = true := rfl

theorem fkiFound_select_lit (Y : Str) : fkiFound ("SELECT ".data ++ Y) kwSELECTu 0 = true := rfl

/-- Generalised lazy capture over an arbitrary field block: it stops exactly
at the end of the block when no interior position triggers the terminator. -/
theorem lazyCapAux_gen (kw : Str) :
    ∀ (b taken tail : Str), b ≠ [] →
      (∀ s, s <:+ b → s ≠ [] → wsThenCI kw (s ++ tail) = false) →
      wsThenCI kw tail = true →
      lazyCapAux kw taken (b ++ tail) = some (taken ++ b) := by
  intro b
  induction b with
  | nil => intro taken tail hne _ _; cases hne rfl
  | cons f b' ih =>
      intro taken tail _ hfail hterm
      cases b' with
      | nil =>
          show lazyCapAux kw taken (f :: tail) = some (taken ++ [f])
          simp [lazyCapAux, hterm]
      | cons g b'' =>
          have hf : wsThenCI kw ((g :: b'') ++ tail) = false :=
            hfail (g :: b'') (List.suffix_cons f (g :: b'')) (by simp)
          show lazyCapAux kw taken (f :: ((g :: b'') ++ tail)) = _
          rw [lazyCapAux, hf]
          simp only [Bool.false_eq_true, if_false]
          have h3 := ih (taken ++ [f]) tail (by simp)
            (fun s hs hsne => hfail s (hs.trans (List.suffix_cons f (g :: b''))) hsne) hterm
          rw [h3]
          simp

theorem getLast?_of_suffix {s b : Str} (h : s <:+ b) (hne : s ≠ []) :
    s.getLast? = b.getLast? := by
  obtain ⟨u, rfl⟩ := h
  exact (List.getLast?_append_of_ne_nil u hne).symm

/-- No interior position of a field block (non-whitespace last character, no
`from` substring) triggers the `\s+FROM` terminator. -/
theorem wsThenCI_block_false (b X : Str)
    (hbfrom : containsSubCI kwFrom b = false)
    (hlast : ∀ c, b.getLast? = some c → isWsChar c = false) :
    ∀ s, s <:+ b → s ≠ [] →
      wsThenCI kwFrom (s ++ (' ' :: ("FROM ".data ++ X))) = false := by
  have hkw : ∀ c ∈ kwFrom, lowerChar c ≠ ' ' := by decide
  intro s hs hsne
  cases s with
  | nil => cases hsne rfl
  | cons c s' =>
      cases hwc : isWsChar c with
      | false => exact wsThenCI_head_false kwFrom _ hwc
      | true =>
          cases s' with
          | nil =>
              have hgl : (c :: ([] : Str)).getLast? = b.getLast? :=
                getLast?_of_suffix hs (by simp)
              have hc2 := hlast c (by rw [← hgl]; rfl)
              rw [hc2] at hwc
              cases hwc
          | cons d s'' =>
              have hs' : (d :: s'') <:+ b := (List.suffix_cons c (d :: s'')).trans hs
              have hgl : (d :: s'').getLast? = b.getLast? := getLast?_of_suffix hs' (by simp)
              obtain ⟨e, he⟩ : ∃ e, (d :: s'').getLast? = some e := by
                cases hg : (d :: s'').getLast? with
                | some e => exact ⟨e, rfl⟩
                | none => exact absurd (List.getLast?_eq_none_iff.mp hg) (by simp)
              have hew : isWsChar e = false := hlast e (hgl ▸ he)
              have hemem : e ∈ (d :: s'') := List.mem_of_mem_getLast? he
              have hdne : (d :: s'').dropWhile isWsChar ≠ [] := by
                intro hnil
                have hall := List.dropWhile_eq_nil_iff.mp hnil
                rw [hall e hemem] at hew
                cases hew
              have hda : ((d :: s'') ++ (' ' :: ("FROM ".data ++ X))).dropWhile isWsChar
                  = (d :: s'').dropWhile isWsChar ++ (' ' :: ("FROM ".data ++ X)) := by
                rw [List.dropWhile_append]
                rw [if_neg]
                intro hc
                exact hdne (List.isEmpty_iff.mp hc)
              show wsThenCI kwFrom (c :: ((d :: s'') ++ (' ' :: ("FROM ".data ++ X)))) = false
              simp only [wsThenCI, hwc, Bool.true_and]
              rw [List.dropWhile_cons]
              simp only [hwc, if_true]
              rw [hda]
              exact sw_false_in_block hkw hbfrom
                ((List.dropWhile_suffix isWsChar).trans hs')

/-- The old regex capture on `SELECT b FROM r` is exactly the field block,
for any block whose first/last characters are not whitespace and that
contains no `from` substring. -/
theorem selectCapture_gen (b r : Str) (hbne : b ≠ [])
    (hhead : ∀ c, b.head? = some c → isWsChar c = false)
    (hlast : ∀ c, b.getLast? = some c → isWsChar c = false)
    (hbfrom : containsSubCI kwFrom b = false) :
    selectCapture ("SELECT ".data ++ (b ++ (" FROM ".data ++ r))) = some b := by
  unfold selectCapture
  show selectCaptureAux none
    ('S' :: ("ELECT ".data ++ (b ++ (" FROM ".data ++ r)))) = some b
  rw [selectCaptureAux]
  have hsw : startsWithCI kwSelect
      ('S' :: ("ELECT ".data ++ (b ++ (" FROM ".data ++ r)))) = true :=
    sw_select_lit (b ++ (" FROM ".data ++ r))
  have hb : boundaryOkB none = true := rfl
  have hdrop : ('S' :: ("ELECT ".data ++ (b ++ (" FROM ".data ++ r)))).drop 6
      = ' ' :: (b ++ (" FROM ".data ++ r)) := rfl
  rw [hsw, hb, hdrop]
  have htry : selectTryAt (' ' :: (b ++ (" FROM ".data ++ r))) = some b := by
    unfold selectTryAt
    have hws : (' ' :: (b ++ (" FROM ".data ++ r))).takeWhile isWsChar = [' '] := by
      cases b with
      | nil => cases hbne rfl
      | cons f b1 =>
          have hf : isWsChar f = false := hhead f rfl
          rw [List.takeWhile_cons]
          simp only [show isWsChar ' ' = true from rfl, if_true, List.cons_append,
            List.takeWhile_cons, hf, Bool.false_eq_true, if_false]
    rw [hws]
    show selectTryWs 1 (' ' :: (b ++ (" FROM ".data ++ r))) = some b
    rw [selectTryWs]
    have hcap : lazyCapAux kwFrom [] (b ++ (' ' :: ("FROM ".data ++ r))) = some b := by
      have h := lazyCapAux_gen kwFrom b [] (' ' :: ("FROM ".data ++ r)) hbne
        (wsThenCI_block_false b r hbfrom hlast) (wsThenCI_from_lit r)
      simpa using h
    rw [show ((' ' :: (b ++ (" FROM ".data ++ r))).drop 1)
        = b ++ (' ' :: ("FROM ".data ++ r)) from rfl, hcap]
  rw [htry]
  simp

/-- The hardened scanner on `SELECT b FROM r` extracts exactly the field
block, under the same block hypotheses as the regex capture. -/
theorem extractSelectClause_gen (b r : Str) (hbne : b ≠ [])
    (hhead : ∀ c, b.head? = some c → isWsChar c = false)
    (hlast : ∀ c, b.getLast? = some c → isWsChar c = false)
    (hbfrom : containsSubCI kwFrom b = false) :
    extractSelectClause ("SELECT ".data ++ (b ++ (" FROM ".data ++ r))) = some b := by
  have hkw : ∀ c ∈ kwFrom, lowerChar c ≠ ' ' := by decide
  have hup : upperStr ("SELECT ".data ++ (b ++ (" FROM ".data ++ r)))
      = "SELECT ".data ++ (upperStr b ++ (" FROM ".data ++ upperStr r)) := by
    simp only [upperStr, List.map_append]
    rfl
  have hlb : (upperStr b).length = b.length := List.length_map _ _
  have hlr : (upperStr r).length = r.length := List.length_map _ _
  have hulen : (upperStr ("SELECT ".data ++ (b ++ (" FROM ".data ++ r)))).length
      = 13 + (b.length + r.length) := by
    rw [hup, List.length_append, List.length_append, List.length_append, hlb, hlr,
      show (("SELECT ".data : Str)).length = 7 from rfl,
      show ((" FROM ".data : Str)).length = 6 from rfl]
    omega
  have hqlen : ("SELECT ".data ++ (b ++ (" FROM ".data ++ r))).length
      = 13 + (b.length + r.length) := by
    rw [List.length_append, List.length_append, List.length_append,
      show (("SELECT ".data : Str)).length = 7 from rfl,
      show ((" FROM ".data : Str)).length = 6 from rfl]
    omega
  have hsel0 : findKeywordIndex
      (upperStr ("SELECT ".data ++ (b ++ (" FROM ".data ++ r)))) kwSELECTu 0 = some 0 := by
    unfold findKeywordIndex
    rw [hulen,
      show (13 + (b.length + r.length) + 1 - 0) = (13 + (b.length + r.length)) + 1 from by
        omega,
      fkiGoF_succ,
      if_neg (show ¬((upperStr ("SELECT ".data ++ (b ++ (" FROM ".data ++ r)))).length
        < 0 + kwSELECTu.length) from by
          rw [hulen, show kwSELECTu.length = 6 from rfl]; omega)]
    rw [hup, fkiFound_select_lit]
    simp
  have hblock : ∀ m, 7 ≤ m → m < 7 + (b.length + 1) →
      ¬((upperStr ("SELECT ".data ++ (b ++ (" FROM ".data ++ r)))).length
          < m + kwFROMu.length) ∧
      fkiFound (upperStr ("SELECT ".data ++ (b ++ (" FROM ".data ++ r)))) kwFROMu m
        = false := by
    intro m hm1 hm2
    constructor
    · rw [hulen, show kwFROMu.length = 4 from rfl]
      omega
    · obtain ⟨j, rfl⟩ : ∃ j, m = 7 + j := ⟨m - 7, by omega⟩
      have hj : j ≤ b.length := by omega
      have hdropm : (upperStr ("SELECT ".data ++ (b ++ (" FROM ".data ++ r)))).drop (7 + j)
          = upperStr ((b.drop j) ++ (' ' :: ("FROM ".data ++ r))) := by
        rw [hup, show (7 + j) = (("SELECT ".data : Str)).length + j from rfl,
          drop_append_right,
          List.drop_append_of_le_length (by rw [hlb]; exact hj),
          show (upperStr b).drop j = upperStr (b.drop j) from (List.map_drop upperChar b j).symm]
        simp only [upperStr, List.map_append, List.map_cons]
        rfl
      have hipo : kwFROMu.isPrefixOf
          ((upperStr ("SELECT ".data ++ (b ++ (" FROM ".data ++ r)))).drop (7 + j))
          = false := by
        rw [hdropm, from_bridge]
        exact sw_false_in_block hkw hbfrom (List.drop_suffix j b)
      unfold fkiFound
      rw [hipo]
      rfl
  have hA : (("SELECT ".data ++ upperStr b : Str)).length = 7 + b.length := by
    rw [List.length_append, hlb]
    rfl
  have hup2 : upperStr ("SELECT ".data ++ (b ++ (" FROM ".data ++ r)))
      = ("SELECT ".data ++ upperStr b) ++ (" FROM ".data ++ upperStr r) := by
    rw [hup, List.append_assoc]
  have hfound : fkiFound (upperStr ("SELECT ".data ++ (b ++ (" FROM ".data ++ r))))
      kwFROMu (8 + b.length) = true := by
    have hd1 : (upperStr ("SELECT ".data ++ (b ++ (" FROM ".data ++ r)))).drop (8 + b.length)
        = "FROM ".data ++ upperStr r := by
      rw [hup2, show (8 + b.length) = (("SELECT ".data ++ upperStr b : Str)).length + 1 from by
        rw [hA]; omega, drop_append_right]
      rfl
    have hd2 : (upperStr ("SELECT ".data ++ (b ++ (" FROM ".data ++ r)))).getD
        (8 + b.length - 1) ' ' = ' ' := by
      rw [hup2, show (8 + b.length - 1) = (("SELECT ".data ++ upperStr b : Str)).length + 0 from by
        rw [hA]; omega, getD_append_right]
      rfl
    have hd3 : (upperStr ("SELECT ".data ++ (b ++ (" FROM ".data ++ r)))).getD
        (8 + b.length + kwFROMu.length) ' ' = ' ' := by
      rw [hup2, show (8 + b.length + kwFROMu.length)
          = (("SELECT ".data ++ upperStr b : Str)).length + 5 from by
        rw [hA, show kwFROMu.length = 4 from rfl]; omega, getD_append_right]
      rfl
    unfold fkiFound
    rw [hd1, ipo_from_lit, if_neg (show ¬(8 + b.length = 0) from by omega), hd2, hd3]
    rfl
  have hfrom7 : findKeywordIndex
      (upperStr ("SELECT ".data ++ (b ++ (" FROM ".data ++ r)))) kwFROMu 7
      = some (8 + b.length) := by
    unfold findKeywordIndex
    rw [hulen,
      show (13 + (b.length + r.length) + 1 - 7) = (b.length + 1) + (6 + r.length) from by
        omega,
      fkiGo_skip _ kwFROMu (b.length + 1) (6 + r.length) 7 hblock,
      show (7 + (b.length + 1)) = 8 + b.length from by omega,
      show (6 + r.length) = (5 + r.length) + 1 from by omega,
      fkiGoF_succ,
      if_neg (show ¬((upperStr ("SELECT ".data ++ (b ++ (" FROM ".data ++ r)))).length
        < 8 + b.length + kwFROMu.length) from by
          rw [hulen, show kwFROMu.length = 4 from rfl]; omega),
      hfound]
    simp
  have hdrop7 : ("SELECT ".data ++ (b ++ (" FROM ".data ++ r))).drop 7
      = b ++ (" FROM ".data ++ r) := by
    rw [show (7 : Nat) = (("SELECT ".data : Str)).length + 0 from rfl, drop_append_right]
    simp
  have hws4 : (("SELECT ".data ++ (b ++ (" FROM ".data ++ r))).drop (0 + 6)).takeWhile isWs4
      = [' '] := by
    cases b with
    | nil => cases hbne rfl
    | cons f b1 =>
        have hf : isWs4 f = false := not_ws4_of_not_ws (hhead f rfl)
        show ((' ' :: ((f :: b1) ++ (" FROM ".data ++ r))).takeWhile isWs4) = [' ']
        rw [List.takeWhile_cons]
        simp only [show isWs4 ' ' = true from rfl, if_true, List.cons_append,
          List.takeWhile_cons, hf, Bool.false_eq_true, if_false]
  unfold extractSelectClause
  simp only [hsel0, hws4]
  rw [if_neg (show ¬(("SELECT ".data ++ (b ++ (" FROM ".data ++ r))).length
      ≤ 0 + 6 + [' '].length) from by rw [hqlen]; simp; omega)]
  simp only [show (0 + 6 + [' '].length) = 7 from rfl, hfrom7]
  rw [show (8 + b.length - 7) = b.length + 1 from by omega, hdrop7,
    show (" FROM ".data ++ r) = ' ' :: ("FROM ".data ++ r) from rfl,
    take_append_one b ' ' ("FROM ".data ++ r),
    trim_append_space b hbne hhead hlast,
    if_neg hbne]

/-- C9 counterexample: on `SELECT,x FROM y` (no whitespace after `SELECT`)
the old regex extractor finds nothing — `\bSELECT\s+` fails to match — while
the new scanner accepts the keyword with a non-word boundary `,`, skips zero
whitespace characters, and extracts `x`.  The two extractors are therefore
not equivalent on every query string. -/
theorem extractors_divergence :
    extractSelectFieldsOld ("SELECT,x FROM y".data) = [] ∧
    extractSelectFields ("SELECT,x FROM y".data) = ["x".data] :=
  ⟨by decide, by decide⟩

/-- C9 (amended): on canonical queries `SELECT b FROM r` — field block `b`
non-empty, first and last characters not whitespace, no case-insensitive
`from` substring inside the block — the regex-based and the scanner-based
extractors agree, both returning the comma-split trimmed non-empty entries
of the block. -/
theorem extractors_agree (b r : Str) (hbne : b ≠ [])
    (hhead : ∀ c, b.head? = some c → isWsChar c = false)
    (hlast : ∀ c, b.getLast? = some c → isWsChar c = false)
    (hbfrom : containsSubCI kwFrom b = false) :
    extractSelectFieldsOld ("SELECT ".data ++ (b ++ (" FROM ".data ++ r)))
      = ((splitOnChar ',' b).map trimStr).filter (fun f => !f.isEmpty) ∧
    extractSelectFields ("SELECT ".data ++ (b ++ (" FROM ".data ++ r)))
      = ((splitOnChar ',' b).map trimStr).filter (fun f => !f.isEmpty) := by
  constructor
  · unfold extractSelectFieldsOld
    rw [selectCapture_gen b r hbne hhead hlast hbfrom]
  · unfold extractSelectFields
    rw [extractSelectClause_gen b r hbne hhead hlast hbfrom]

/-- Witness for the amended C9 equivalence on a two-field SELECT list. -/
theorem extractors_agree_witness :
    extractSelectFieldsOld ("SELECT ".data ++ ("campaign.id, campaign.name".data
        ++ (" FROM ".data ++ "campaign".data)))
      = ((splitOnChar ',' ("campaign.id, campaign.name".data)).map trimStr).filter
          (fun f => !f.isEmpty) ∧
    extractSelectFields ("SELECT ".data ++ ("campaign.id, campaign.name".data
        ++ (" FROM ".data ++ "campaign".data)))
      = ((splitOnChar ',' ("campaign.id, campaign.name".data)).map trimStr).filter
          (fun f => !f.isEmpty) :=
  extractors_agree ("campaign.id, campaign.name".data) ("campaign".data)
    (by decide) (by decide) (by decide) (by decide)

/-! ## C7 — dotted-path completions -/

theorem dedup_go_mem (typedPath : Str) :
    ∀ (fs : List FieldDefinition) (acc : List (Str × FieldDefinition)) (seg : Str),
      seg ∈ (fs.foldl (fun acc f =>
          let seg := nextSegOf typedPath f.description
          if seg = [] ∨ acc.any (fun p => p.1 = seg) then acc
          else acc ++ [(seg, f)]) acc).map (·.1)
        ↔ seg ∈ acc.map (·.1)
          ∨ (seg ≠ [] ∧ ∃ f ∈ fs, nextSegOf typedPath f.description = seg) := by
  intro fs
  induction fs with
  | nil =>
      intro acc seg
      rw [List.foldl_nil]
      constructor
      · exact fun h => Or.inl h
      · rintro (h | ⟨_, f, hf, _⟩)
        · exact h
        · cases hf
  | cons f fs' ih =>
      intro acc seg
      rw [List.foldl_cons, ih]
      by_cases h0 : nextSegOf typedPath f.description = []
        ∨ acc.any (fun p => p.1 = nextSegOf typedPath f.description) = true
      · simp only [if_pos h0]
        constructor
        · rintro (h | ⟨hne, f', hf', heq⟩)
          · exact Or.inl h
          · exact Or.inr ⟨hne, f', List.mem_cons_of_mem f hf', heq⟩
        · rintro (h | ⟨hne, f', hf', heq⟩)
          · exact Or.inl h
          · cases List.mem_cons.mp hf' with
            | inl heq2 =>
                subst heq2
                rcases h0 with h00 | h00
                · rw [heq] at h00
                  exact absurd h00 hne
                · obtain ⟨p, hp, hp1⟩ := List.any_eq_true.mp h00
                  refine Or.inl ?_
                  rw [List.mem_map]
                  exact ⟨p, hp, by rw [of_decide_eq_true hp1, heq]⟩
            | inr h2 => exact Or.inr ⟨hne, f', h2, heq⟩
      · simp only [if_neg h0]
        push_neg at h0
        constructor
        · rintro (h | ⟨hne, f', hf', heq⟩)
          · rw [List.map_append] at h
            rcases List.mem_append.mp h with h2 | h2
            · exact Or.inl h2
            · simp only [List.map_cons, List.map_nil, List.mem_singleton] at h2
              exact Or.inr ⟨h2 ▸ h0.1, f, List.mem_cons_self f fs', h2.symm⟩
          · exact Or.inr ⟨hne, f', List.mem_cons_of_mem f hf', heq⟩
        · rintro (h | ⟨hne, f', hf', heq⟩)
          · exact Or.inl (by rw [List.map_append]; exact List.mem_append.mpr (Or.inl h))
          · cases List.mem_cons.mp hf' with
            | inl heq2 =>
                subst heq2
                refine Or.inl ?_
                rw [List.map_append]
                refine List.mem_append.mpr (Or.inr ?_)
                simp [heq.symm]
            | inr h2 => exact Or.inr ⟨hne, f', h2, heq⟩

theorem dedup_go_nodup (typedPath : Str) :
    ∀ (fs : List FieldDefinition) (acc : List (Str × FieldDefinition)),
      (acc.map (·.1)).Nodup →
      ((fs.foldl (fun acc f =>
          let seg := nextSegOf typedPath f.description
          if seg = [] ∨ acc.any (fun p => p.1 = seg) then acc
          else acc ++ [(seg, f)]) acc).map (·.1)).Nodup := by
  intro fs
  induction fs with
  | nil => intro acc h; exact h
  | cons f fs' ih =>
      intro acc h
      rw [List.foldl_cons]
      apply ih
      by_cases h0 : nextSegOf typedPath f.description = []
        ∨ acc.any (fun p => p.1 = nextSegOf typedPath f.description) = true
      · simp only [if_pos h0]
        exact h
      · simp only [if_neg h0]
        push_neg at h0
        rw [List.map_append]
        simp only [List.map_cons, List.map_nil]
        rw [List.nodup_append]
        refine ⟨h, List.nodup_singleton _, ?_⟩
        intro a ha hb
        simp only [List.mem_singleton] at hb
        subst hb
        obtain ⟨p, hp, hp1⟩ := List.mem_map.mp ha
        exact absurd (List.any_eq_true.mpr ⟨p, hp, decide_eq_true hp1⟩) h0.2

theorem mem_dedupByNextSeg (typedPath : Str) (fs : List FieldDefinition) (seg : Str) :
    seg ∈ (dedupByNextSeg typedPath fs).map (·.1)
      ↔ seg ≠ [] ∧ ∃ f ∈ fs, nextSegOf typedPath f.description = seg := by
  unfold dedupByNextSeg
  rw [dedup_go_mem]
  simp

theorem dedupByNextSeg_nodup (typedPath : Str) (fs : List FieldDefinition) :
    ((dedupByNextSeg typedPath fs).map (·.1)).Nodup := by
  unfold dedupByNextSeg
  exact dedup_go_nodup typedPath fs [] (by simp)

/-- The prefix-scoped, typed-path-filtered candidate list that
`getFieldSuggestions` actually uses for a dotted typed path (the prefix is
everything but the last segment). -/
def scopedMatches (cat : Catalog) (resource typedPath : Str) : List FieldDefinition :=
  (getFieldsForResourceScoped cat resource
      (List.intercalate ['.'] ((splitOnChar '.' typedPath).dropLast))).filter
    (fun f => (lowerStr typedPath).isPrefixOf f.description)

/-- C7 counterexample: with a nested field name (`asset.text_asset.text` —
the shape the extraction script produces for nested proto fields), typing
`SELECT asset.text_asset.te` puts a two-dot path before the cursor.  The
claim promises one suggestion per distinct next segment among the flattened
fields starting with the typed path (there is exactly one such field), but
the scoped lookup resolves the prefix `asset.text_asset`, which is not an
attribution-group key, so `getCompletions` returns no suggestions at all. -/
theorem completion_scoped_counterexample :
    (getCompletions assetCatalog ("SELECT asset.text_asset.te FROM asset".data) 26).context
      = .select_fields ∧
    (getCompletions assetCatalog ("SELECT asset.text_asset.te FROM asset".data) 26).pfx
      = some ("asset.text_asset.te".data) ∧
    (getCompletions assetCatalog ("SELECT asset.text_asset.te FROM asset".data) 26).suggestions
      = [] ∧
    ((getFieldsForResource assetCatalog ("asset".data)).filter
        (fun f => (lowerStr ("asset.text_asset.te".data)).isPrefixOf f.description)).map
      (·.description) = [("asset.text_asset.text".data)] :=
  ⟨by decide, by decide, by decide, by decide⟩

/-- C7 (amended): for a typed path containing a dot (with a non-empty
all-but-last-segment prefix), the suggestions are computed from the fields
scoped to that prefix — `getFieldsForResourcePrefix`, which only resolves
attribution-group keys, never `metrics`/`segments` or deeper nesting — and
not from the resource's flattened field set; among those scoped candidates
filtered by the typed path there is exactly one suggestion per distinct
non-empty next path segment (the first candidate per segment). -/
theorem fieldSuggestions_dotted_scoped (cat : Catalog) (resource typedPath : Str)
    (hne : typedPath ≠ []) (hdot : typedPath.contains '.' = true)
    (hpfx : List.intercalate ['.'] ((splitOnChar '.' typedPath).dropLast) ≠ []) :
    getFieldSuggestions cat resource typedPath
      = (dedupByNextSeg typedPath (scopedMatches cat resource typedPath)).map
          (fun p => fieldToCompletionItem p.2)
    ∧ ((dedupByNextSeg typedPath (scopedMatches cat resource typedPath)).map (·.1)).Nodup
    ∧ ∀ seg, seg ∈ (dedupByNextSeg typedPath (scopedMatches cat resource typedPath)).map (·.1)
        ↔ (seg ≠ [] ∧ ∃ f ∈ scopedMatches cat resource typedPath,
            nextSegOf typedPath f.description = seg) := by
  refine ⟨?_, dedupByNextSeg_nodup _ _, fun seg => mem_dedupByNextSeg _ _ _⟩
  unfold getFieldSuggestions scopedMatches
  rw [if_neg (not_or.mpr ⟨hne, fun hc => hc hdot⟩)]
  simp only []
  rw [if_neg hpfx]

/-- Witness for the amended C7 statement at the nested-field catalog with the
one-dot typed path `asset.te` (whose prefix `asset` is a group key). -/
theorem fieldSuggestions_dotted_scoped_witness :
    getFieldSuggestions assetCatalog ("asset".data) ("asset.te".data)
      = (dedupByNextSeg ("asset.te".data)
          (scopedMatches assetCatalog ("asset".data) ("asset.te".data))).map
          (fun p => fieldToCompletionItem p.2)
    ∧ ((dedupByNextSeg ("asset.te".data)
        (scopedMatches assetCatalog ("asset".data) ("asset.te".data))).map (·.1)).Nodup
    ∧ ∀ seg, seg ∈ (dedupByNextSeg ("asset.te".data)
          (scopedMatches assetCatalog ("asset".data) ("asset.te".data))).map (·.1)
        ↔ (seg ≠ [] ∧ ∃ f ∈ scopedMatches assetCatalog ("asset".data) ("asset.te".data),
            nextSegOf ("asset.te".data) f.description = seg) :=
  fieldSuggestions_dotted_scoped assetCatalog ("asset".data) ("asset.te".data)
    (by decide) (by decide) (by decide)

end GAQL
